import Mathlib

/-!
# Verification of the Nspin exam-question pipeline

Shallow embedding of the repository's pure algorithmic core:

* `question_extractor.py` — OCR fragment filtering and question
  reconstruction (`parse_question_with_location`, `parse_question`,
  `_parse_inline_format`);
* `exam_formatter.py` — character-greedy line wrapping (`_wrap_text`),
  question height estimation (`_calculate_question_height`), rendering
  (`_render_question`, `render_questions_to_pages`);
* `image_stitcher.py` — the adaptive two-column bin packer
  (`ImageStitcher._layout_images`).

Python strings are modelled as Lean `String`s (sequences of unicode code
points, as in CPython); Python `dict`s keyed by option letters are modelled
as association lists with insert-or-replace semantics, which reproduces
CPython's insertion-ordered dictionaries; pixel coordinates are `Int`/`Nat`.
The external font-measurement capability (`font.getbbox`) is a parameter
`measure : List Char → Int`.  Each regex used by the source is translated
into an executable character-level matcher; the regexes are only ever
applied to `str.strip()`-ed text, and the matchers are faithful on such
inputs.
-/

namespace Nspin

/-! ## Dictionaries (Python `dict` with string keys) -/

/-- Python `d[k] = v`: replace the value at an existing key in place,
otherwise append the new key at the end (insertion order). -/
def dictInsert {α β : Type} [DecidableEq α] (k : α) (v : β) :
    List (α × β) → List (α × β)
  | [] => [(k, v)]
  | (k1, v1) :: rest =>
      if k1 = k then (k, v) :: rest else (k1, v1) :: dictInsert k v rest

/-- Python `d.get(k)` / `d[k]` lookup. -/
def dictGet {α β : Type} [DecidableEq α] (k : α) :
    List (α × β) → Option β
  | [] => none
  | (k1, v1) :: rest => if k1 = k then some v1 else dictGet k rest

/-- Python `list(d.keys())`. -/
def dictKeys {α β : Type} (d : List (α × β)) : List α := d.map Prod.fst

/-- Python `d[k].append(v)` for a dict of lists: appends to the entry at
`k`; a missing key is left untouched (the source only appends to keys it
has just initialised, so that case is unreachable). -/
def dictAppend {α β : Type} [DecidableEq α] (k : α) (v : β) :
    List (α × List β) → List (α × List β)
  | [] => []
  | (k1, l) :: rest =>
      if k1 = k then (k1, l ++ [v]) :: rest else (k1, l) :: dictAppend k v rest

/-! ## String and sorting primitives

Lean's built-in `String.trim`, `String.startsWith` and `List.mergeSort`
are implemented on `Substring`s or by well-founded recursion and do not
reduce inside the kernel, so the corresponding Python operations are
modelled by the executable definitions below. -/

/-- Python `str.strip()`: remove whitespace from both ends. -/
def pyStrip (s : String) : String :=
  String.mk
    (((s.data.dropWhile (·.isWhitespace)).reverse.dropWhile
        (·.isWhitespace)).reverse)

/-- `^5G`: the text starts with `5G`. -/
def startsWith5G : List Char → Bool
  | '5' :: 'G' :: _ => true
  | _ => false

/-- Stable insertion: place `a` before the first element `b` with
`le a b`. -/
def insertLe {α : Type} (le : α → α → Bool) (a : α) : List α → List α
  | [] => [a]
  | b :: bs => if le a b then a :: b :: bs else b :: insertLe le a bs

/-- Python `list.sort(key=...)` is a stable sort; with a total preorder
comparison every stable sort produces the same output, modelled here by
stable insertion sort. -/
def pySort {α : Type} (le : α → α → Bool) : List α → List α
  | [] => []
  | a :: rest => insertLe le a (pySort le rest)

/-! ## Regex matchers from `question_extractor.py` -/

/-- `^\d+/\d+$` — a page counter such as `6/19`. -/
def pageCounterPat (cs : List Char) : Bool :=
  let ds := cs.takeWhile (·.isDigit)
  match cs.dropWhile (·.isDigit) with
  | '/' :: rest => !ds.isEmpty && !rest.isEmpty && rest.all (·.isDigit)
  | _ => false

/-- `^\d{1,2}:\d{2}` — a clock time prefix such as `9:17` (prefix match,
as `re.match` without `$`). -/
def clockPat : List Char → Bool
  | d1 :: ':' :: a :: b :: _ => d1.isDigit && a.isDigit && b.isDigit
  | d1 :: d2 :: ':' :: a :: b :: _ =>
      d1.isDigit && d2.isDigit && a.isDigit && b.isDigit
  | _ => false

/-- `^\.{2,}` — starts with a run of at least two periods. -/
def twoDotsPat : List Char → Bool
  | '.' :: '.' :: _ => true
  | _ => false

/-- `^\\\s*$` — a lone backslash followed only by whitespace. -/
def backslashPat : List Char → Bool
  | '\\' :: rest => rest.all (·.isWhitespace)
  | _ => false

/-- The fixed category labels that both filters drop. -/
def categoryLabels : List String :=
  ["单选题", "多选题", "常识判断", "逻辑填空",
   "言语理解", "资料分析", "判断推理", "数量关系"]

/-- The `skip_patterns` list of `parse_question_with_location`
(lines 103–108): page counter, category labels, clock time, `^5G`,
`^\.\.\.$`, `^<$`, `^>$`, bare number `^\d+$`.  Applied to stripped text. -/
def skipAnyLoc (t : String) : Bool :=
  pageCounterPat t.data || categoryLabels.any (fun l => t == l) ||
  clockPat t.data || startsWith5G t.data || t == "..." ||
  t == "<" || t == ">" || (!t.data.isEmpty && t.data.all (·.isDigit))

/-- The `skip_patterns` list of `parse_question` (lines 261–276): page
counter, category labels, clock time, `^5G`, bare number `^\d+$`,
`^\.{2,}`, `^\\\s*$`.  Applied to stripped text. -/
def skipAnyPQ (t : String) : Bool :=
  pageCounterPat t.data || categoryLabels.any (fun l => t == l) ||
  clockPat t.data || startsWith5G t.data ||
  (!t.data.isEmpty && t.data.all (·.isDigit)) ||
  twoDotsPat t.data || backslashPat t.data

/-- `^[A-D]$` on stripped text: the fragment is exactly one option letter. -/
def isOptionLetter (t : String) : Bool :=
  t == "A" || t == "B" || t == "C" || t == "D"

/-- The separator class `[\s\.．、]` of the inline option regexes. -/
def isInlineSep (c : Char) : Bool :=
  c.isWhitespace || c == '.' || c == '．' || c == '、'

/-- `(.+)$`: a non-empty run of non-newline characters reaching the end of
the string (`$` also matches just before one final newline). -/
def inlineContent (cs : List Char) : Option String :=
  let body := cs.takeWhile (fun c => c ≠ '\n')
  let rest := cs.dropWhile (fun c => c ≠ '\n')
  if !body.isEmpty && (rest.isEmpty || rest == ['\n']) then
    some (String.mk body)
  else none

/-- `^([A-D])[\s\.．、]\s*(.+)$` (line 141): inline option with optional
whitespace between separator and content; returns (letter, content). -/
def inlineMatchLoc (t : String) : Option (String × String) :=
  match t.data with
  | c :: sep :: rest =>
      if (c == 'A' || c == 'B' || c == 'C' || c == 'D') && isInlineSep sep then
        (inlineContent (rest.dropWhile (·.isWhitespace))).map
          (fun content => (String.mk [c], content))
      else none
  | _ => none

/-- `^([A-D])[\s\.．、](.+)$` (line 364, `_parse_inline_format`): as above
but with no `\s*` after the separator. -/
def inlineMatchPQ (t : String) : Option (String × String) :=
  match t.data with
  | c :: sep :: rest =>
      if (c == 'A' || c == 'B' || c == 'C' || c == 'D') && isInlineSep sep then
        (inlineContent rest).map (fun content => (String.mk [c], content))
      else none
  | _ => none

/-- `'()' in text or '（）' in text`: an adjacent empty-parenthesis pair. -/
def subPair (a b : Char) : List Char → Bool
  | x :: y :: rest => (x == a && y == b) || subPair a b (y :: rest)
  | _ => false

/-- A fragment containing an empty-parenthesis placeholder. -/
def hasEmptyParen (t : String) : Bool :=
  subPair '(' ')' t.data || subPair '（' '）' t.data

/-- Helper for `stripPlaceholder`, working on the reversed character list:
matches the reversal of `[（(]\s*[）)]\s*。?` at the front and returns the
remaining (still reversed) characters. -/
def stripPlaceholderRev (r : List Char) : Option (List Char) :=
  let r1 := match r with
    | '。' :: rest => rest
    | _ => r
  match r1.dropWhile (·.isWhitespace) with
  | c :: rest =>
      if c == '）' || c == ')' then
        match rest.dropWhile (·.isWhitespace) with
        | d :: rest2 => if d == '（' || d == '(' then some rest2 else none
        | [] => none
      else none
  | [] => none

/-- `re.sub(r'[（\(]\s*[）\)]\s*。?$', '', stem)`: strip one trailing
empty-parenthesis placeholder, optionally followed by `。`. -/
def stripPlaceholder (s : String) : String :=
  match stripPlaceholderRev s.data.reverse with
  | some r => String.mk r.reverse
  | none => s

/-! ## Fragments and questions -/

/-- One OCR fragment: the `words` text plus its `location` bounding box.
The source reads entries through `.get` with defaults; we model every
entry as carrying a location (entries without one are never produced by
the OCR collaborator's contract). -/
structure Item where
  text : String
  top : Int
  left : Int
  height : Int
  width : Int
deriving Repr, DecidableEq

/-- The `Question` record of `question_extractor.py`. -/
structure Question where
  stem : String
  options : List (String × String)
  raw_text : String
deriving Repr, DecidableEq

/-! ## `parse_question` (text-only parser, lines 255–355) -/

/-- The line filter of `parse_question` (lines 277–283): strip, then drop
empty lines, lines of length ≤ 2, and noise-pattern lines. -/
def pqFilter : List String → List String
  | [] => []
  | l :: rest =>
      let t := pyStrip l
      if t.data.isEmpty || t.length ≤ 2 then pqFilter rest
      else if skipAnyPQ t then pqFilter rest
      else t :: pqFilter rest

/-- `option_positions` (lines 286–289): indices of standalone letters. -/
def pqOptionPositionsAux : List String → Nat → List (Nat × String)
  | [], _ => []
  | l :: rest, i =>
      if isOptionLetter l then (i, l) :: pqOptionPositionsAux rest (i + 1)
      else pqOptionPositionsAux rest (i + 1)

def pqOptionPositions (lines : List String) : List (Nat × String) :=
  pqOptionPositionsAux lines 0

/-- The stem-end scan of `parse_question` (lines 300–305): over indices
`0 ≤ i < firstIdx`, the first line containing an empty-paren placeholder
or ending in `。` sets the stem end to `i + 1`. -/
def pqStemScanAux : List String → Nat → Nat → Option Nat
  | [], _, _ => none
  | l :: rest, i, bound =>
      if bound ≤ i then none
      else if hasEmptyParen l || l.data.getLast? == some '。' then some (i + 1)
      else pqStemScanAux rest (i + 1) bound

def pqStemEnd (lines : List String) (firstIdx : Nat) : Nat :=
  (pqStemScanAux lines 0 firstIdx).getD firstIdx

/-- The inner loop over `content_after` (lines 336–343): keep lines while
the accumulator is empty or the line is shorter than 20 characters; stop
at the first long line after the first. -/
def takeShort : List String → List String → List String
  | [], acc => acc
  | l :: rest, acc =>
      if acc.isEmpty || l.length < 20 then takeShort rest (acc ++ [l])
      else acc

/-- The option-content loop of `parse_question` (lines 314–346).
`startBefore` is `stem_end_idx` for the first letter and
`previous position + 1` afterwards. -/
def pqOptionsAux (lines : List String) :
    List (Nat × String) → Nat → List (String × String) → List (String × String)
  | [], _, opts => opts
  | (pos, letter) :: rest, startBefore, opts =>
      let endAfter := match rest with
        | (p2, _) :: _ => p2
        | [] => lines.length
      let contentBefore := (lines.drop startBefore).take (pos - startBefore)
      let contentAfter := (lines.drop (pos + 1)).take (endAfter - (pos + 1))
      let finalAfter := takeShort contentAfter []
      pqOptionsAux lines rest (pos + 1)
        (dictInsert letter (String.join (contentBefore ++ finalAfter)) opts)

/-- `_parse_inline_format` (lines 358–374): one pass collecting inline
options; a non-matching line extends the stem only while no option has
been seen yet. -/
def pifAux : List String → List (String × String) → List String →
    List (String × String) × List String
  | [], opts, stems => (opts, stems)
  | l :: rest, opts, stems =>
      match inlineMatchPQ l with
      | some (k, v) => pifAux rest (dictInsert k (pyStrip v) opts) stems
      | none =>
          if opts.isEmpty then pifAux rest opts (stems ++ [l])
          else pifAux rest opts stems

def parseInlineFormat (lines : List String) (raw : String) : Question :=
  let p := pifAux lines [] []
  ⟨pyStrip (stripPlaceholder (String.join p.2)), p.1, raw⟩

/-- `parse_question` (lines 255–355). -/
def parseQuestion (text : String) : Question :=
  let lines := (pyStrip text).splitOn "\n"
  let filtered := pqFilter lines
  let positions := pqOptionPositions filtered
  match positions with
  | [] => parseInlineFormat filtered text
  | (firstIdx, _) :: _ =>
      let stemEnd := pqStemEnd filtered firstIdx
      let stem := String.join (filtered.take stemEnd)
      let opts := pqOptionsAux filtered positions stemEnd []
      ⟨pyStrip (stripPlaceholder stem), opts, text⟩

/-! ## `parse_question_with_location` (lines 90–252) -/

/-- The fragment filter (lines 110–128): strip the text, drop empty
fragments, then apply the two noise checks exactly as written — note that
the length-≤-2 branch re-tests the same noise patterns, so it never drops
anything the following check would not also drop. -/
def validItems : List Item → List Item
  | [] => []
  | it :: rest =>
      let t := pyStrip it.text
      let tail := validItems rest
      if t.data.isEmpty then tail
      else if t.length ≤ 2 && !isOptionLetter t && skipAnyLoc t then tail
      else if skipAnyLoc t then tail
      else { it with text := t } :: tail

/-- `valid_items.sort(key=lambda x: x["top"])` (line 131). -/
def sortedValid (ws : List Item) : List Item :=
  pySort (fun a b => a.top ≤ b.top) (validItems ws)

/-- `'\n'.join(item["text"] for item in valid_items)` (line 133). -/
def rawText (items : List Item) : String :=
  String.intercalate "\n" (items.map (·.text))

/-- An entry of `option_items` / `option_letters`: index into the sorted
valid items, the letter text and its `top` coordinate. -/
structure OptItem where
  index : Nat
  letter : String
  top : Int
deriving Repr, DecidableEq

/-- The inline scan (lines 136–145): collect `options` (a dict, so
last-write-wins per letter) and `option_items` in stream order. -/
def inlineScanAux : List Item → Nat → List (String × String) → List OptItem →
    List (String × String) × List OptItem
  | [], _, opts, its => (opts, its)
  | it :: rest, i, opts, its =>
      match inlineMatchLoc it.text with
      | some lv =>
          inlineScanAux rest (i + 1) (dictInsert lv.1 (pyStrip lv.2) opts)
            (its ++ [⟨i, lv.1, it.top⟩])
      | none => inlineScanAux rest (i + 1) opts its

/-- `option_letters` (lines 155–162): standalone single-letter fragments
with their indices and `top` coordinates. -/
def optionLettersAux : List Item → Nat → List OptItem
  | [], _ => []
  | it :: rest, i =>
      if isOptionLetter it.text then
        ⟨i, it.text, it.top⟩ :: optionLettersAux rest (i + 1)
      else optionLettersAux rest (i + 1)

def optionLetters (items : List Item) : List OptItem :=
  optionLettersAux items 0

/-- The stem-end scan of the detached branch (lines 171–176): the first
fragment anywhere in the sorted stream containing `()` or `（）`. -/
def parenScan : List Item → Nat → Option Nat
  | [], _ => none
  | it :: rest, i =>
      if hasEmptyParen it.text then some i else parenScan rest (i + 1)

/-- `stem_end_idx` (lines 171–185): index of the first placeholder
fragment, else `first marker index − 2` when that index is ≥ 2, else −1.
`ms` is the top-sorted `option_letters` list (non-empty at the call site). -/
def stemEndIdx (items : List Item) (ms : List OptItem) : Int :=
  match parenScan items 0 with
  | some i => (i : Int)
  | none =>
      match ms with
      | m :: _ => if 2 ≤ m.index then (m.index : Int) - 2 else -1
      | [] => -1

/-- The nearest-marker loop (lines 209–215): running minimum over markers,
`dist < min_dist` strict, starting from `min_dist = inf` (`none`). -/
def closestAux (t : Int) : List OptItem → Option String → Option Nat → Option String
  | [], best, _ => best
  | m :: rest, best, bd =>
      let d := (t - m.top).natAbs
      match bd with
      | none => closestAux t rest (some m.letter) (some d)
      | some b =>
          if d < b then closestAux t rest (some m.letter) (some d)
          else closestAux t rest best (some b)

def findClosest (ms : List OptItem) (t : Int) : Option String :=
  closestAux t ms none none

/-- `options = {opt["letter"]: [] for opt in option_letters}` (line 197). -/
def bucketsInit (ms : List OptItem) : List (String × List Item) :=
  ms.foldl (fun d m => dictInsert m.letter [] d) []

/-- The assignment loop (lines 200–218): skip fragments at or before the
stem end and the markers themselves; append every other fragment to the
bucket of its nearest marker. -/
def assignLoop (ms : List OptItem) (stemEnd : Int) :
    List Item → Nat → List (String × List Item) → List (String × List Item)
  | [], _, d => d
  | it :: rest, i, d =>
      if (i : Int) ≤ stemEnd then assignLoop ms stemEnd rest (i + 1) d
      else if isOptionLetter it.text then assignLoop ms stemEnd rest (i + 1) d
      else
        match findClosest ms it.top with
        | some letter => assignLoop ms stemEnd rest (i + 1) (dictAppend letter it d)
        | none => assignLoop ms stemEnd rest (i + 1) d

/-- The line-grouping loop (lines 230–239): two fragments share a line iff
the `top` difference to the line's first fragment is < 40. -/
def groupLinesAux : List Item → Item → List Item → List (List Item) →
    List (List Item)
  | [], first, cur, acc => acc ++ [first :: cur]
  | it :: rest, first, cur, acc =>
      if (it.top - first.top).natAbs < 40 then
        groupLinesAux rest first (cur ++ [it]) acc
      else groupLinesAux rest it [] (acc ++ [first :: cur])

def groupLines : List Item → List (List Item)
  | [] => []
  | it :: rest => groupLinesAux rest it [] []

/-- Lines 221–250: turn one bucket into the option's text — sort by `top`,
group into lines, sort each line by `left`, join within a line with a
space and across lines with nothing; an empty bucket becomes `""`. -/
def optionText (content : List Item) : String :=
  if content.isEmpty then ""
  else
    let sorted := pySort (fun a b => a.top ≤ b.top) content
    let lines := (groupLines sorted).map
      (fun line => pySort (fun a b => a.left ≤ b.left) line)
    String.join (lines.map
      (fun line => String.intercalate " " (line.map (·.text))))

/-- The detached-branch option dictionary: buckets after assignment,
then each bucket replaced by its joined text (lines 197–250). -/
def detachedOptions (items : List Item) (ms : List OptItem) (stemEnd : Int) :
    List (String × String) :=
  (assignLoop ms stemEnd items 0 (bucketsInit ms)).map
    (fun p => (p.1, optionText p.2))

/-- `parse_question_with_location` (lines 90–252). -/
def parseQuestionWithLocation (ws : List Item) : Question :=
  if ws.isEmpty then ⟨"", [], ""⟩
  else
    let items := sortedValid ws
    let raw := rawText items
    let scan := inlineScanAux items 0 [] []
    if !scan.1.isEmpty then
      let firstIdx := match scan.2 with
        | o :: _ => o.index
        | [] => items.length
      let stem := String.join ((items.take firstIdx).map (·.text))
      ⟨pyStrip (stripPlaceholder stem), scan.1, raw⟩
    else
      let ms0 := optionLetters items
      if ms0.isEmpty then parseQuestion raw
      else
        let ms := pySort (fun a b => a.top ≤ b.top) ms0
        let stemEnd := stemEndIdx items ms
        let stem :=
          if 0 ≤ stemEnd then
            stripPlaceholder
              (String.join ((items.take (stemEnd.toNat + 1)).map (·.text)))
          else ""
        ⟨pyStrip stem, detachedOptions items ms stemEnd, raw⟩

/-! ## `exam_formatter.py` -/

def PAGE_WIDTH : Nat := 3508
def PAGE_HEIGHT : Nat := 2480
def MARGIN : Nat := 120
def CONTENT_WIDTH : Nat := PAGE_WIDTH - 2 * MARGIN
def LINE_HEIGHT_STEM : Nat := 72
def LINE_HEIGHT_OPTION : Nat := 66

/-- `_wrap_text` (lines 41–61), one step per character.  `measure` is the
external font capability `lambda s: bbox[2] - bbox[0]` applied to the
candidate line. -/
def wrapAux (measure : List Char → Int) (maxWidth : Int) :
    List Char → List (List Char) → List Char → List (List Char)
  | [], lines, cur => if cur.isEmpty then lines else lines ++ [cur]
  | c :: cs, lines, cur =>
      let test := cur ++ [c]
      if measure test ≤ maxWidth then wrapAux measure maxWidth cs lines test
      else wrapAux measure maxWidth cs
        (if cur.isEmpty then lines else lines ++ [cur]) [c]

def wrapText (measure : List Char → Int) (maxWidth : Int)
    (text : List Char) : List (List Char) :=
  wrapAux measure maxWidth text [] []

/-- `f"{number}. {question.stem}"`. -/
def stemText (q : Question) (number : Nat) : List Char :=
  Nat.toDigits 10 number ++ ". ".data ++ q.stem.data

/-- `_calculate_question_height` (lines 106–126). -/
def calcQuestionHeight (measure : List Char → Int) (maxWidth : Int)
    (q : Question) (number : Nat) : Nat :=
  let stemLines := wrapText measure maxWidth (stemText q number)
  let h := stemLines.length * LINE_HEIGHT_STEM
  if q.options.isEmpty then h
  else h + ((q.options.length + 1) / 2) * LINE_HEIGHT_OPTION + 20

/-- Lexicographic string order by code point, Python `sorted` on strings. -/
def charListLe : List Char → List Char → Bool
  | [], _ => true
  | _ :: _, [] => false
  | a :: as1, b :: bs =>
      if a.toNat = b.toNat then charListLe as1 bs
      else decide (a.toNat < b.toNat)

def strLe (a b : String) : Bool := charListLe a.data b.data

/-- The two-per-row option loop of `_render_question` (lines 156–168):
each `range(0, n, 2)` step advances `current_y` by one option line. -/
def optionRowsLoop : List String → Nat → Nat
  | [], y => y
  | [_], y => y + LINE_HEIGHT_OPTION
  | _ :: _ :: rest, y => optionRowsLoop rest (y + LINE_HEIGHT_OPTION)

/-- `_render_question` (lines 129–170), tracking only the returned
`current_y` (drawing itself is external). -/
def renderQuestionEndY (measure : List Char → Int) (maxWidth : Int)
    (q : Question) (number : Nat) (startY : Nat) : Nat :=
  let stemLines := wrapText measure maxWidth (stemText q number)
  let y1 := stemLines.foldl (fun y _ => y + LINE_HEIGHT_STEM) startY
  if q.options.isEmpty then y1
  else optionRowsLoop (pySort strLe (dictKeys q.options)) (y1 + 20)

/-- The page-break check of `render_questions_to_pages` (lines 84–88):
flush the page and reset the cursor to the top margin iff the next
question of height `qh` would overflow (there is no emptiness guard in
the source). -/
def renderFlush (qh : Nat) (pages : List (List (Nat × Question)))
    (cur : List (Nat × Question)) (y : Nat) :
    List (List (Nat × Question)) × List (Nat × Question) × Nat :=
  if PAGE_HEIGHT - MARGIN < y + qh then
    (pages ++ [cur], ([] : List (Nat × Question)), MARGIN)
  else (pages, cur, y)

/-- The loop of `render_questions_to_pages` (lines 77–101).  A page is
modelled by the list of `(number, question)` pairs drawn on it. -/
def renderLoop (measure : List Char → Int) :
    List Question → Nat → List (List (Nat × Question)) →
    List (Nat × Question) → Nat → List (List (Nat × Question))
  | [], _, pages, cur, y => if MARGIN < y then pages ++ [cur] else pages
  | q :: rest, idx, pages, cur, y =>
      let qh := calcQuestionHeight measure CONTENT_WIDTH q idx
      let s := renderFlush qh pages cur y
      renderLoop measure rest (idx + 1) s.1 (s.2.1 ++ [(idx, q)])
        (renderQuestionEndY measure CONTENT_WIDTH q idx s.2.2 + 40)

/-- `render_questions_to_pages` (lines 64–103). -/
def renderQuestionsToPages (measure : List Char → Int)
    (qs : List Question) : List (List (Nat × Question)) :=
  if qs.isEmpty then [] else renderLoop measure qs 1 [] [] MARGIN

/-! ## `image_stitcher.py` -/

def A4_WIDTH : Nat := 2480
def A4_HEIGHT : Nat := 3508
def PADDING : Nat := 40
def GAP : Nat := 20
def contentW : Nat := A4_WIDTH - 2 * PADDING
def contentH : Nat := A4_HEIGHT - 2 * PADDING

/-- A pre-scaled content block: only its pixel dimensions matter. -/
structure Img where
  width : Nat
  height : Nat
deriving Repr, DecidableEq

/-- `PlacedImage` (lines 14–21). -/
structure PlacedImage where
  image : Img
  x : Nat
  y : Nat
  width : Nat
  height : Nat
deriving Repr, DecidableEq

/-- `half_width = (content_width - GAP) // 2` (line 85). -/
def halfWidth : Nat := (contentW - GAP) / 2

/-- `_fit_to_width` (lines 136–142).  The scaling branch uses float
arithmetic in the source (`int(h * target/w)`), modelled as floor
division; every call site guards `width ≤ target`, making that branch
unreachable, so the theorems below never depend on it. -/
def fitToWidth (img : Img) (target : Nat) : Img :=
  if img.width ≤ target then img
  else ⟨target, img.height * target / img.width⟩

/-- The recurring page-break check (lines 79–82, 115–119 and, for the
spec-modelled grid mode, §4.5): flush the page and reset the cursor iff
the next placement of height `h` would overflow a non-empty page. -/
def flushStep (h : Nat) (pages : List (List PlacedImage))
    (cur : List PlacedImage) (y : Nat) :
    List (List PlacedImage) × List PlacedImage × Nat :=
  if contentH < y + h && !cur.isEmpty then
    (pages ++ [cur], ([] : List PlacedImage), 0)
  else (pages, cur, y)

/-- The single-column placement (lines 114–129): flush if the image does
not fit vertically and the page is non-empty, then place at full width. -/
def singleStep (img : Img) (pages : List (List PlacedImage))
    (cur : List PlacedImage) (y : Nat) :
    List (List PlacedImage) × List PlacedImage × Nat :=
  let s := flushStep img.height pages cur y
  (s.1, s.2.1 ++ [⟨img, PADDING, PADDING + s.2.2, img.width, img.height⟩],
   s.2.2 + img.height + GAP)

/-- `_layout_images` (lines 66–134). -/
def layoutLoop : List Img → List (List PlacedImage) → List PlacedImage →
    Nat → List (List PlacedImage)
  | [], pages, cur, _ => if cur.isEmpty then pages else pages ++ [cur]
  | [img], pages, cur, y =>
      let s := flushStep img.height pages cur y
      let t := singleStep img s.1 s.2.1 s.2.2
      layoutLoop [] t.1 t.2.1 t.2.2
  | img :: next :: rest2, pages, cur, y =>
      let s := flushStep img.height pages cur y
      if img.width ≤ halfWidth && next.width ≤ halfWidth then
        let leftImg := fitToWidth img halfWidth
        let rightImg := fitToWidth next halfWidth
        let rowH := max leftImg.height rightImg.height
        if s.2.2 + rowH ≤ contentH then
          layoutLoop rest2 s.1
            (s.2.1 ++
              [⟨leftImg, PADDING, PADDING + s.2.2,
                leftImg.width, leftImg.height⟩,
               ⟨rightImg, PADDING + halfWidth + GAP, PADDING + s.2.2,
                rightImg.width, rightImg.height⟩])
            (s.2.2 + rowH + GAP)
        else
          let t := singleStep img s.1 s.2.1 s.2.2
          layoutLoop (next :: rest2) t.1 t.2.1 t.2.2
      else
        let t := singleStep img s.1 s.2.1 s.2.2
        layoutLoop (next :: rest2) t.1 t.2.1 t.2.2
termination_by l _ _ _ => l.length
decreasing_by all_goals simp +arith

def layoutImages (imgs : List Img) : List (List PlacedImage) :=
  layoutLoop imgs [] [] 0

/-! ## Grid-mode layout (spec §4.5), not present in `src/` -/

/-- Modelled from the spec: the per-column cell width of grid mode; the
spec gives only `x = margin + col·(cell_width+gap)`, so the cell width is
the content width split into `cols` columns separated by gaps. -/
def cellWidth (cols : Nat) : Nat := (contentW - (cols - 1) * GAP) / cols

/-- Modelled from the spec: place one grid run left-to-right at a common
`y`, column `c` at `x = margin + c·(cell_width+gap)`. -/
def gridRow (cols : Nat) (run : List Img) (y : Nat) : List PlacedImage :=
  run.enum.map (fun p =>
    ⟨p.2, PADDING + p.1 * (cellWidth cols + GAP), PADDING + y,
     p.2.width, p.2.height⟩)

/-- Modelled from the spec: grid-mode bin packing (§4.5) — the source
repository has no grid-mode layout engine; this definition follows the
spec's words: consume blocks in runs of `cols`; a run's row height is the
maximum block height of the run; flush-and-reset only when the row would
overflow a non-empty page; advance the cursor by `row_height + gap`; a
final partial run is placed identically. -/
def gridLoop (cols : Nat) : List Img → List (List PlacedImage) →
    List PlacedImage → Nat → List (List PlacedImage)
  | [], pages, cur, _ => if cur.isEmpty then pages else pages ++ [cur]
  | b :: bs, pages, cur, y =>
      let run := b :: bs.take (cols - 1)
      let rest := bs.drop (cols - 1)
      let rowH := run.foldl (fun m x => max m x.height) 0
      let s := flushStep rowH pages cur y
      gridLoop cols rest s.1 (s.2.1 ++ gridRow cols run s.2.2)
        (s.2.2 + rowH + GAP)
termination_by l _ _ _ => l.length
decreasing_by simp +arith [List.length_drop]

/-- Modelled from the spec: grid-mode entry point. -/
def gridLayout (cols : Nat) (blocks : List Img) : List (List PlacedImage) :=
  gridLoop cols blocks [] [] 0

/-- Follows the claim's words (C3): a fragment whose trimmed text has
length ≤ 2 must be dropped unless the text is exactly one of the letters
A–D.  Used only to exhibit the divergence from the source filters. -/
def specShortFragmentDropped (t : String) : Bool :=
  (pyStrip t).length ≤ 2 && !isOptionLetter (pyStrip t)

/-- Follows the claim's words (C7): scan only the fragments before the
first marker for one containing an empty-parenthesis placeholder or ending
in a sentence terminal. -/
def specStemScan : List Item → Nat → Nat → Option Nat
  | [], _, _ => none
  | it :: rest, i, bound =>
      if bound ≤ i then none
      else if hasEmptyParen it.text || it.text.data.getLast? == some '。' then
        some i
      else specStemScan rest (i + 1) bound

/-- Follows the claim's words (C7): the boundary is the fragment found by
the bounded scan, else it defaults to two fragments before the first
marker (whose index is `firstIdx`). -/
def specStemEndIdx (items : List Item) (firstIdx : Nat) : Int :=
  match specStemScan items 0 firstIdx with
  | some i => (i : Int)
  | none => (firstIdx : Int) - 2

/-- The fragments the assignment loop of the detached strategy actually
distributes: index strictly after the stem end and not itself a marker
(the skip conditions of lines 200–203). -/
def eligibleAux (ms : List OptItem) (stemEnd : Int) :
    List Item → Nat → List Item
  | [], _ => []
  | it :: rest, i =>
      if (i : Int) ≤ stemEnd then eligibleAux ms stemEnd rest (i + 1)
      else if isOptionLetter it.text then eligibleAux ms stemEnd rest (i + 1)
      else it :: eligibleAux ms stemEnd rest (i + 1)

/-- A placed block lies inside the content area (page minus margins). -/
def inBounds (p : PlacedImage) : Prop :=
  PADDING ≤ p.x ∧ PADDING ≤ p.y ∧ p.x + p.width ≤ PADDING + contentW ∧
  p.y + p.height ≤ PADDING + contentH

/-- Two placed rectangles do not overlap (half-open pixel rectangles). -/
def rectDisjoint (a b : PlacedImage) : Prop :=
  a.x + a.width ≤ b.x ∨ b.x + b.width ≤ a.x ∨
  a.y + a.height ≤ b.y ∨ b.y + b.height ≤ a.y

/-- The layout invariant of a finished page. -/
def GoodPage (pg : List PlacedImage) : Prop :=
  (∀ p ∈ pg, inBounds p) ∧ pg.Pairwise rectDisjoint

/-- The inner invariant of `_layout_images` for the page under
construction at cursor `y`: an empty page has cursor 0, every placed
block is horizontally in bounds, sits below the margin, ends above the
cursor and above the content bottom, and blocks are pairwise disjoint. -/
def LayoutInv (cur : List PlacedImage) (y : Nat) : Prop :=
  (cur = [] → y = 0) ∧
  (∀ p ∈ cur, PADDING ≤ p.x ∧ p.x + p.width ≤ PADDING + contentW ∧
    PADDING ≤ p.y ∧ p.y + p.height ≤ PADDING + y ∧
    p.y + p.height ≤ PADDING + contentH) ∧
  cur.Pairwise rectDisjoint

/-- Keys of an option dictionary: a subset of the four letters, no
duplicates. -/
def GoodKeys {β : Type} (d : List (String × β)) : Prop :=
  dictKeys d ⊆ ["A", "B", "C", "D"] ∧ (dictKeys d).Nodup

/-! ## Dictionary lemmas -/

theorem mem_insertLe {α : Type} (le : α → α → Bool) (a x : α) (l : List α) :
    x ∈ insertLe le a l ↔ x = a ∨ x ∈ l := by
  induction l with
  | nil => simp [insertLe]
  | cons b bs ih =>
      by_cases h : le a b <;> simp [insertLe, h, ih] <;> tauto

theorem length_insertLe {α : Type} (le : α → α → Bool) (a : α) (l : List α) :
    (insertLe le a l).length = l.length + 1 := by
  induction l with
  | nil => rfl
  | cons b bs ih => by_cases h : le a b <;> simp [insertLe, h, ih]

theorem mem_pySort {α : Type} (le : α → α → Bool) (x : α) (l : List α) :
    x ∈ pySort le l ↔ x ∈ l := by
  induction l with
  | nil => simp [pySort]
  | cons a rest ih => simp [pySort, mem_insertLe, ih]

theorem length_pySort {α : Type} (le : α → α → Bool) (l : List α) :
    (pySort le l).length = l.length := by
  induction l with
  | nil => rfl
  | cons a rest ih => simp [pySort, length_insertLe, ih]

theorem pairwise_insertLe {α : Type} (le : α → α → Bool)
    (htr : ∀ a b c, le a b = true → le b c = true → le a c = true)
    (hto : ∀ a b, le a b = true ∨ le b a = true) (a : α) (l : List α)
    (h : l.Pairwise (fun x y => le x y = true)) :
    (insertLe le a l).Pairwise (fun x y => le x y = true) := by
  induction l with
  | nil => simp [insertLe]
  | cons b bs ih =>
      rcases List.pairwise_cons.mp h with ⟨hb, hbs⟩
      by_cases hab : le a b
      · simp only [insertLe, if_pos hab]
        refine List.pairwise_cons.mpr ⟨?_, h⟩
        intro x hx
        rcases List.mem_cons.mp hx with h1 | h1
        · exact h1 ▸ hab
        · exact htr a b x hab (hb x h1)
      · have hba : le b a = true := by
          rcases hto a b with h1 | h1
          · exact absurd h1 hab
          · exact h1
        simp only [insertLe, hab, if_neg]
        refine List.pairwise_cons.mpr ⟨?_, ih hbs⟩
        intro x hx
        rcases (mem_insertLe le a x bs).mp hx with h1 | h1
        · exact h1 ▸ hba
        · exact hb x h1

theorem pairwise_pySort {α : Type} (le : α → α → Bool)
    (htr : ∀ a b c, le a b = true → le b c = true → le a c = true)
    (hto : ∀ a b, le a b = true ∨ le b a = true) (l : List α) :
    (pySort le l).Pairwise (fun x y => le x y = true) := by
  induction l with
  | nil => simp [pySort]
  | cons a rest ih => exact pairwise_insertLe le htr hto a _ ih


theorem dictKeys_dictInsert_eq {α β : Type} [DecidableEq α] (k : α) (v : β)
    (d : List (α × β)) :
    dictKeys (dictInsert k v d) =
      if k ∈ dictKeys d then dictKeys d else dictKeys d ++ [k] := by
  induction d with
  | nil => simp [dictInsert, dictKeys]
  | cons p rest ih =>
      by_cases hk : p.1 = k
      · simp [dictInsert, hk, dictKeys]
      · have hne : ¬ k = p.1 := fun h => hk h.symm
        simp only [dictKeys, List.map_cons] at ih ⊢
        by_cases hmem : k ∈ List.map Prod.fst rest
        · rw [show dictInsert k v (p :: rest) = p :: dictInsert k v rest by
            simp [dictInsert, hk]]
          rw [List.map_cons, ih, if_pos hmem]
          simp [List.mem_cons, hne, hmem]
        · rw [show dictInsert k v (p :: rest) = p :: dictInsert k v rest by
            simp [dictInsert, hk]]
          rw [List.map_cons, ih, if_neg hmem]
          simp [List.mem_cons, hne, hmem]

theorem dictKeys_dictInsert {α β : Type} [DecidableEq α] (k : α) (v : β)
    (d : List (α × β)) :
    ∀ x ∈ dictKeys (dictInsert k v d), x = k ∨ x ∈ dictKeys d := by
  intro x hx
  by_cases hmem : k ∈ dictKeys d
  · rw [dictKeys_dictInsert_eq, if_pos hmem] at hx
    exact Or.inr hx
  · rw [dictKeys_dictInsert_eq, if_neg hmem] at hx
    rcases List.mem_append.mp hx with h1 | h1
    · exact Or.inr h1
    · exact Or.inl (by simpa using h1)

theorem dictKeys_dictInsert_nodup {α β : Type} [DecidableEq α] (k : α) (v : β)
    (d : List (α × β)) (h : (dictKeys d).Nodup) :
    (dictKeys (dictInsert k v d)).Nodup := by
  rw [dictKeys_dictInsert_eq]
  by_cases hmem : k ∈ dictKeys d
  · simpa [hmem] using h
  · simp [hmem, List.nodup_append, h]

theorem mem_dictKeys_dictInsert_self {α β : Type} [DecidableEq α] (k : α)
    (v : β) (d : List (α × β)) : k ∈ dictKeys (dictInsert k v d) := by
  rw [dictKeys_dictInsert_eq]
  by_cases hmem : k ∈ dictKeys d <;> simp [hmem]

theorem mem_dictKeys_dictInsert_of_mem {α β : Type} [DecidableEq α] (k x : α)
    (v : β) (d : List (α × β)) (h : x ∈ dictKeys d) :
    x ∈ dictKeys (dictInsert k v d) := by
  rw [dictKeys_dictInsert_eq]
  by_cases hmem : k ∈ dictKeys d <;> simp [hmem, h]

theorem dictKeys_dictAppend {α β : Type} [DecidableEq α] (k : α) (v : β)
    (d : List (α × List β)) : dictKeys (dictAppend k v d) = dictKeys d := by
  induction d with
  | nil => rfl
  | cons p rest ih =>
      by_cases h : p.1 = k <;> simp [dictAppend, h, dictKeys] <;>
        simpa [dictKeys] using ih

theorem dictGet_dictInsert {α β : Type} [DecidableEq α] (k q : α) (v : β)
    (d : List (α × β)) :
    dictGet q (dictInsert k v d) = if k = q then some v else dictGet q d := by
  induction d with
  | nil => simp [dictInsert, dictGet]
  | cons p rest ih =>
      by_cases hk : p.1 = k
      · by_cases hq : k = q <;> simp [dictInsert, dictGet, hk, hq]
      · by_cases hq : p.1 = q
        · have hkq : ¬ k = q := fun h => hk (by rw [hq, h])
          have hqk : ¬ q = k := fun h => hkq h.symm
          simp [dictInsert, dictGet, hk, hq, hkq, hqk]
        · simp [dictInsert, dictGet, hk, hq, ih]

theorem dictGet_dictAppend {α β : Type} [DecidableEq α] (k q : α) (v : β)
    (d : List (α × List β)) :
    dictGet q (dictAppend k v d) =
      if k = q then (dictGet q d).map (fun l => l ++ [v]) else dictGet q d := by
  induction d with
  | nil => by_cases h : k = q <;> simp [dictAppend, dictGet, h]
  | cons p rest ih =>
      by_cases hk : p.1 = k
      · by_cases hq : p.1 = q
        · have hkq : k = q := by rw [← hk, hq]
          simp [dictAppend, dictGet, hk, hq, hkq]
        · have hkq : ¬ k = q := fun h => hq (by rw [hk, h])
          simp [dictAppend, dictGet, hk, hq, hkq]
      · by_cases hq : p.1 = q
        · have hkq : ¬ k = q := fun h => hk (by rw [hq, h])
          have hqk : ¬ q = k := fun h => hkq h.symm
          simp [dictAppend, dictGet, hk, hq, hkq, hqk]
        · simp [dictAppend, dictGet, hk, hq, ih]

theorem dictGet_mapValues {α β γ : Type} [DecidableEq α] (q : α) (f : β → γ)
    (d : List (α × β)) :
    dictGet q (d.map (fun p => (p.1, f p.2))) = (dictGet q d).map f := by
  induction d with
  | nil => simp [dictGet]
  | cons p rest ih =>
      by_cases h : p.1 = q <;> simp [dictGet, h, ih]

theorem dictKeys_mapValues {α β γ : Type} (f : β → γ) (d : List (α × β)) :
    dictKeys (d.map (fun p => (p.1, f p.2))) = dictKeys d := by
  induction d with
  | nil => rfl
  | cons p rest ih => simpa [dictKeys] using ih

/-! ## C10 — wrapping loses no character -/

theorem wrapAux_flatten (measure : List Char → Int) (maxWidth : Int) :
    ∀ (cs : List Char) (lines : List (List Char)) (cur : List Char),
      (wrapAux measure maxWidth cs lines cur).flatten =
        lines.flatten ++ cur ++ cs := by
  intro cs
  induction cs with
  | nil =>
      intro lines cur
      by_cases h : cur.isEmpty <;>
        simp_all [wrapAux, List.isEmpty_iff]
  | cons c cs ih =>
      intro lines cur
      simp only [wrapAux]
      by_cases h : measure (cur ++ [c]) ≤ maxWidth
      · simp [h, ih]
      · by_cases hc : cur.isEmpty
        · simp [h, hc, ih, List.isEmpty_iff.mp hc]
        · simp [h, hc, ih, List.flatten_append]

/-- C10: for every input string and every maximum width, concatenating the
lines returned by `_wrap_text` yields exactly the input string — no
character is dropped, duplicated or reordered. -/
theorem c10_wrap_preserves_text (measure : List Char → Int) (maxWidth : Int)
    (text : List Char) :
    (wrapText measure maxWidth text).flatten = text := by
  simpa using wrapAux_flatten measure maxWidth text [] []

/-! ## C5 — height estimate agrees with rendering -/

theorem foldl_add_const (l : List (List Char)) (c : Nat) :
    ∀ y : Nat, l.foldl (fun y _ => y + c) y = y + l.length * c := by
  induction l with
  | nil => simp
  | cons x xs ih =>
      intro y
      simp only [List.foldl_cons, List.length_cons, ih]
      ring

theorem optionRowsLoop_eq (keys : List String) (y : Nat) :
    optionRowsLoop keys y =
      y + ((keys.length + 1) / 2) * LINE_HEIGHT_OPTION := by
  induction keys, y using optionRowsLoop.induct with
  | case1 y => simp [optionRowsLoop]
  | case2 h y => simp [optionRowsLoop]
  | case3 h1 h2 rest y ih =>
      simp only [optionRowsLoop]
      rw [ih]
      simp only [List.length_cons, LINE_HEIGHT_OPTION]
      omega

/-- C5: for every `Question`, question number, font measure and start
coordinate, the height computed by `_calculate_question_height` equals the
vertical extent `_render_question` actually consumes from `start_y`. -/
theorem c5_height_estimate_agrees (measure : List Char → Int) (maxWidth : Int)
    (q : Question) (number : Nat) (startY : Nat) :
    renderQuestionEndY measure maxWidth q number startY =
      startY + calcQuestionHeight measure maxWidth q number := by
  simp only [renderQuestionEndY, calcQuestionHeight, foldl_add_const,
    optionRowsLoop_eq, length_pySort, dictKeys, List.length_map]
  by_cases h : q.options.isEmpty
  · simp [h]
  · simp [h]
    ring

/-! ## C3 — short-fragment filtering -/

theorem isOptionLetter_cases (t : String) (h : isOptionLetter t = true) :
    t = "A" ∨ t = "B" ∨ t = "C" ∨ t = "D" := by
  simpa [isOptionLetter, Bool.or_eq_true, beq_iff_eq, or_assoc] using h

theorem skipAnyLoc_letter (t : String) (h : isOptionLetter t = true) :
    skipAnyLoc t = false ∧ t.data.isEmpty = false := by
  rcases isOptionLetter_cases t h with h1 | h1 | h1 | h1 <;> subst h1 <;>
    exact ⟨by decide, by decide⟩

/-- C3 counterexample: the claim fails on both source filters.  The
location-aware filter keeps the two-character fragment `"xy"` even though
the claim requires it to be dropped (it is short and not an option
letter), and the text-only filter of `parse_question` drops the bare
letter `"A"` even though the claim requires every bare letter A–D to
survive. -/
theorem c3_counterexample :
    validItems [⟨"xy", 0, 0, 10, 10⟩] = [⟨"xy", 0, 0, 10, 10⟩] ∧
    specShortFragmentDropped "xy" = true ∧
    pqFilter ["A"] = [] ∧
    isOptionLetter "A" = true := by
  refine ⟨?_, by decide, by decide, by decide⟩
  decide

/-- C3 (amended): both filters act fragment-by-fragment.  The
location-aware filter of `parse_question_with_location` drops a short
fragment (trimmed length ≤ 2) iff its trimmed text is empty or matches a
noise pattern — length itself plays no role — and bare letters A–D always
survive it; the text-only filter of `parse_question` drops every line
whose trimmed text has length ≤ 2, including the bare letters A–D. -/
theorem c3_short_fragment_filtering :
    (∀ it rest, validItems (it :: rest) = validItems [it] ++ validItems rest) ∧
    (∀ it : Item, (pyStrip it.text).length ≤ 2 →
      validItems [it] =
        if (pyStrip it.text).data.isEmpty || skipAnyLoc (pyStrip it.text) then []
        else [{it with text := (pyStrip it.text)}]) ∧
    (∀ it : Item, isOptionLetter (pyStrip it.text) = true →
      validItems [it] = [{it with text := (pyStrip it.text)}]) ∧
    (∀ l rest, pqFilter (l :: rest) = pqFilter [l] ++ pqFilter rest) ∧
    (∀ l : String, (pyStrip l).length ≤ 2 → pqFilter [l] = []) := by
  refine ⟨?_, ?_, ?_, ?_, ?_⟩
  · intro it rest
    simp only [validItems]
    by_cases h1 : (pyStrip it.text).data.isEmpty
    · simp [h1]
    · by_cases h2 : (decide ((pyStrip it.text).length ≤ 2) &&
          !isOptionLetter (pyStrip it.text) && skipAnyLoc (pyStrip it.text))
      · simp [h1, h2]
      · by_cases h3 : skipAnyLoc (pyStrip it.text)
        · simp [h1, h2, h3]
        · simp [h1, h2, h3]
  · intro it hlen
    simp only [validItems]
    by_cases h1 : (pyStrip it.text).data.isEmpty
    · simp [h1]
    · by_cases h3 : skipAnyLoc (pyStrip it.text)
      · by_cases h2 : isOptionLetter (pyStrip it.text)
        · rcases isOptionLetter_cases _ h2 with h4 | h4 | h4 | h4 <;>
            rw [h4] at h3 <;> exact absurd h3 (by decide)
        · simp [h1, h2, h3, hlen]
      · by_cases h2 : isOptionLetter (pyStrip it.text)
        · simp [h1, h2, h3, hlen]
        · simp [h1, h2, h3, hlen]
  · intro it hlet
    obtain ⟨hskip, hne⟩ := skipAnyLoc_letter _ hlet
    simp only [validItems]
    simp [hne, hlet, hskip]
  · intro l rest
    simp only [pqFilter]
    by_cases h1 : ((pyStrip l).data.isEmpty || decide ((pyStrip l).length ≤ 2))
    · simp [h1]
    · by_cases h2 : skipAnyPQ (pyStrip l)
      · simp [h1, h2]
      · simp [h1, h2]
  · intro l hlen
    simp [pqFilter, hlen]

/-- C3 witness: the amended theorem applied at concrete inputs — a padded
bare letter survives the location-aware filter (trimmed), and a bare
letter is dropped by the text-only filter. -/
theorem c3_short_fragment_witness :
    validItems [⟨" A ", 5, 6, 7, 8⟩] = [⟨"A", 5, 6, 7, 8⟩] ∧
    pqFilter ["B"] = [] := by
  constructor
  · rw [c3_short_fragment_filtering.2.2.1 ⟨" A ", 5, 6, 7, 8⟩ (by decide)]
    decide
  · exact c3_short_fragment_filtering.2.2.2.2 "B" (by decide)

end Nspin

namespace Nspin

/-! ## C7 — stem/options boundary in the detached strategy -/

theorem parenScan_some : ∀ (items : List Item) (s i : Nat),
    parenScan items s = some i →
    s ≤ i ∧ (∃ x, items[i - s]? = some x ∧ hasEmptyParen x.text = true) ∧
      ∀ j x, j < i - s → items[j]? = some x →
        hasEmptyParen x.text = false := by
  intro items
  induction items with
  | nil => intro s i h; simp [parenScan] at h
  | cons it rest ih =>
      intro s i h
      by_cases hp : hasEmptyParen it.text
      · rw [parenScan, if_pos hp] at h
        obtain rfl : s = i := by simpa using h
        refine ⟨le_refl _, ⟨it, by simp, by simpa using hp⟩, ?_⟩
        intro j x hlt
        omega
      · rw [parenScan, if_neg hp] at h
        obtain ⟨hs, ⟨x, hx, hfound⟩, hbefore⟩ := ih (s + 1) i h
        have hsi : s ≤ i := by omega
        refine ⟨hsi, ⟨x, ?_, hfound⟩, ?_⟩
        · rw [show i - s = (i - (s + 1)) + 1 by omega]
          simpa using hx
        · intro j z hlt hz
          match j, hz with
          | 0, hz =>
              obtain rfl : it = z := by simpa using hz
              simpa using hp
          | j + 1, hz =>
              exact hbefore j z (by omega) (by simpa using hz)

theorem parenScan_none : ∀ (items : List Item) (s : Nat),
    parenScan items s = none → ∀ it ∈ items, hasEmptyParen it.text = false := by
  intro items
  induction items with
  | nil => intro s _ it hit; simp at hit
  | cons x rest ih =>
      intro s h it hit
      by_cases hp : hasEmptyParen x.text
      · rw [parenScan, if_pos hp] at h; exact absurd h (by simp)
      · rw [parenScan, if_neg hp] at h
        rcases List.mem_cons.mp hit with h1 | h1
        · exact h1 ▸ (by simpa using hp)
        · exact ih (s + 1) h it h1

/-- C7 counterexample: the code's boundary scan is not restricted to the
fragments before the first marker and ignores sentence terminals.  In the
first stream the only placeholder fragment sits after the marker (index 2,
marker at index 1), and the code picks it, while the claim's rule yields
−1; in the second stream a fragment before the marker ends in `。`, which
the claim's rule picks (boundary 0) but the code ignores, defaulting to
`first marker index − 2 = 1`. -/
theorem c7_counterexample :
    stemEndIdx [⟨"题干叙述", 0, 0, 40, 100⟩, ⟨"A", 100, 0, 40, 20⟩,
        ⟨"深度（）学习", 200, 0, 40, 100⟩]
      (pySort (fun a b => a.top ≤ b.top)
        (optionLetters [⟨"题干叙述", 0, 0, 40, 100⟩, ⟨"A", 100, 0, 40, 20⟩,
          ⟨"深度（）学习", 200, 0, 40, 100⟩])) = 2 ∧
    (optionLetters [⟨"题干叙述", 0, 0, 40, 100⟩, ⟨"A", 100, 0, 40, 20⟩,
        ⟨"深度（）学习", 200, 0, 40, 100⟩]).map (·.index) = [1] ∧
    specStemEndIdx [⟨"题干叙述", 0, 0, 40, 100⟩, ⟨"A", 100, 0, 40, 20⟩,
        ⟨"深度（）学习", 200, 0, 40, 100⟩] 1 = -1 ∧
    stemEndIdx [⟨"这是题干。", 0, 0, 40, 100⟩, ⟨"行一", 100, 0, 40, 100⟩,
        ⟨"行二", 200, 0, 40, 100⟩, ⟨"A", 300, 0, 40, 20⟩]
      (pySort (fun a b => a.top ≤ b.top)
        (optionLetters [⟨"这是题干。", 0, 0, 40, 100⟩, ⟨"行一", 100, 0, 40, 100⟩,
          ⟨"行二", 200, 0, 40, 100⟩, ⟨"A", 300, 0, 40, 20⟩])) = 1 ∧
    specStemEndIdx [⟨"这是题干。", 0, 0, 40, 100⟩, ⟨"行一", 100, 0, 40, 100⟩,
        ⟨"行二", 200, 0, 40, 100⟩, ⟨"A", 300, 0, 40, 20⟩] 3 = 0 := by
  decide

/-- C7 (amended): in the detached strategy the boundary is found by
scanning ALL sorted fragments — not only those before the first marker —
for the first one containing an empty-parenthesis placeholder (`()` or
`（）`); sentence terminals are not considered.  If such a fragment exists
the boundary is its index (the least such index); otherwise it defaults to
two fragments before the first marker, or to −1 (empty stem) when the
first marker's index is below 2. -/
theorem c7_stem_boundary (items : List Item) (ms : List OptItem) :
    (∀ i, parenScan items 0 = some i →
      stemEndIdx items ms = (i : Int) ∧
      (∃ x, items[i]? = some x ∧ hasEmptyParen x.text = true) ∧
      ∀ j x, j < i → items[j]? = some x →
        hasEmptyParen x.text = false) ∧
    (parenScan items 0 = none →
      (∀ it ∈ items, hasEmptyParen it.text = false) ∧
      stemEndIdx items ms =
        (match ms with
         | m :: _ => if 2 ≤ m.index then (m.index : Int) - 2 else -1
         | [] => -1)) := by
  constructor
  · intro i h
    obtain ⟨-, hfound, hbefore⟩ := parenScan_some items 0 i h
    rw [Nat.sub_zero] at hfound
    refine ⟨by simp [stemEndIdx, h], hfound, ?_⟩
    intro j x hlt hx
    exact hbefore j x (by omega) hx
  · intro h
    exact ⟨parenScan_none items 0 h, by simp [stemEndIdx, h]⟩

/-- C7 witness: the amended boundary rule applied to two concrete streams,
one where a placeholder is found at index 1 and one with no placeholder
and the first marker at index 2. -/
theorem c7_stem_boundary_witness :
    stemEndIdx [⟨"某某", 0, 0, 1, 1⟩, ⟨"填空（）", 10, 0, 1, 1⟩,
        ⟨"A", 20, 0, 1, 1⟩] [⟨2, "A", 20⟩] = 1 ∧
    stemEndIdx [⟨"某某", 0, 0, 1, 1⟩, ⟨"另一行", 10, 0, 1, 1⟩,
        ⟨"A", 20, 0, 1, 1⟩] [⟨2, "A", 20⟩] = 0 := by
  constructor
  · exact ((c7_stem_boundary [⟨"某某", 0, 0, 1, 1⟩, ⟨"填空（）", 10, 0, 1, 1⟩,
      ⟨"A", 20, 0, 1, 1⟩] [⟨2, "A", 20⟩]).1 1 (by decide)).1
  · exact (((c7_stem_boundary [⟨"某某", 0, 0, 1, 1⟩, ⟨"另一行", 10, 0, 1, 1⟩,
      ⟨"A", 20, 0, 1, 1⟩] [⟨2, "A", 20⟩]).2 (by decide)).2).trans (by decide)

end Nspin

namespace Nspin

/-! ## C6 — option keys are a duplicate-free subset of A–D -/

theorem goodKeys_nil {β : Type} : GoodKeys ([] : List (String × β)) := by
  constructor <;> simp [dictKeys]

theorem goodKeys_dictInsert {β : Type} (k : String) (v : β)
    (d : List (String × β)) (hk : k ∈ ["A", "B", "C", "D"])
    (h : GoodKeys d) : GoodKeys (dictInsert k v d) := by
  refine ⟨?_, dictKeys_dictInsert_nodup k v d h.2⟩
  intro x hx
  rcases dictKeys_dictInsert k v d x hx with h1 | h1
  · exact h1 ▸ hk
  · exact h.1 h1

theorem letterString_mem (c : Char)
    (hc : (c == 'A' || c == 'B' || c == 'C' || c == 'D') = true) :
    String.mk [c] ∈ ["A", "B", "C", "D"] := by
  rcases (by simpa [Bool.or_eq_true, beq_iff_eq, or_assoc] using hc :
      c = 'A' ∨ c = 'B' ∨ c = 'C' ∨ c = 'D') with h | h | h | h <;>
    subst h <;> simp

theorem inlineMatchLoc_letter (t : String) (p : String × String)
    (h : inlineMatchLoc t = some p) : p.1 ∈ ["A", "B", "C", "D"] := by
  rcases ht : t.data with - | ⟨c, - | ⟨sep, rest⟩⟩ <;>
    rw [inlineMatchLoc, ht] at h <;> simp only [] at h
  · exact absurd h (by simp)
  · exact absurd h (by simp)
  · by_cases hc : ((c == 'A' || c == 'B' || c == 'C' || c == 'D') &&
        isInlineSep sep)
    · rw [if_pos hc] at h
      obtain ⟨content, -, hp⟩ := Option.map_eq_some'.mp h
      have hc2 := hc
      rw [Bool.and_eq_true] at hc2
      have := letterString_mem c hc2.1
      rw [← hp]
      simpa using this
    · rw [if_neg hc] at h
      exact absurd h (by simp)

theorem inlineMatchPQ_letter (t : String) (p : String × String)
    (h : inlineMatchPQ t = some p) : p.1 ∈ ["A", "B", "C", "D"] := by
  rcases ht : t.data with - | ⟨c, - | ⟨sep, rest⟩⟩ <;>
    rw [inlineMatchPQ, ht] at h <;> simp only [] at h
  · exact absurd h (by simp)
  · exact absurd h (by simp)
  · by_cases hc : ((c == 'A' || c == 'B' || c == 'C' || c == 'D') &&
        isInlineSep sep)
    · rw [if_pos hc] at h
      obtain ⟨content, -, hp⟩ := Option.map_eq_some'.mp h
      have hc2 := hc
      rw [Bool.and_eq_true] at hc2
      have := letterString_mem c hc2.1
      rw [← hp]
      simpa using this
    · rw [if_neg hc] at h
      exact absurd h (by simp)

theorem isOptionLetter_mem (t : String) (h : isOptionLetter t = true) :
    t ∈ ["A", "B", "C", "D"] := by
  rcases isOptionLetter_cases t h with h1 | h1 | h1 | h1 <;> simp [h1]

theorem inlineScanAux_keys : ∀ (items : List Item) (i : Nat)
    (opts : List (String × String)) (its : List OptItem),
    GoodKeys opts → GoodKeys (inlineScanAux items i opts its).1 := by
  intro items
  induction items with
  | nil => intro i opts its h; simpa [inlineScanAux] using h
  | cons it rest ih =>
      intro i opts its h
      rw [inlineScanAux]
      match hm : inlineMatchLoc it.text with
      | some lv =>
          exact ih _ _ _
            (goodKeys_dictInsert _ _ _ (inlineMatchLoc_letter _ _ hm) h)
      | none => exact ih _ _ _ h

theorem optionLettersAux_letter : ∀ (items : List Item) (i : Nat),
    ∀ m ∈ optionLettersAux items i, isOptionLetter m.letter = true := by
  intro items
  induction items with
  | nil => intro i m hm; simp [optionLettersAux] at hm
  | cons it rest ih =>
      intro i m hm
      rw [optionLettersAux] at hm
      by_cases hl : isOptionLetter it.text
      · rw [if_pos hl] at hm
        rcases List.mem_cons.mp hm with h1 | h1
        · rw [h1]; exact hl
        · exact ih _ m h1
      · rw [if_neg hl] at hm
        exact ih _ m hm

theorem bucketsInit_goodKeys_aux :
    ∀ (ms : List OptItem) (d : List (String × List Item)),
    GoodKeys d → (∀ m ∈ ms, isOptionLetter m.letter = true) →
    GoodKeys (ms.foldl (fun d m => dictInsert m.letter [] d) d) := by
  intro ms
  induction ms with
  | nil => intro d h _; simpa using h
  | cons m rest ih =>
      intro d h hms
      simp only [List.foldl_cons]
      exact ih _
        (goodKeys_dictInsert _ _ _
          (isOptionLetter_mem _ (hms m (List.mem_cons_self m rest))) h)
        (fun x hx => hms x (List.mem_cons_of_mem m hx))

theorem dictKeys_assignLoop (ms : List OptItem) (stemEnd : Int) :
    ∀ (items : List Item) (i : Nat) (d : List (String × List Item)),
    dictKeys (assignLoop ms stemEnd items i d) = dictKeys d := by
  intro items
  induction items with
  | nil => intro i d; rfl
  | cons it rest ih =>
      intro i d
      rw [assignLoop]
      by_cases h1 : ((i : Int) ≤ stemEnd)
      · rw [if_pos h1]; exact ih _ _
      · rw [if_neg h1]
        by_cases h2 : isOptionLetter it.text
        · rw [if_pos h2]; exact ih _ _
        · rw [if_neg h2]
          match findClosest ms it.top with
          | some letter => rw [ih _ _, dictKeys_dictAppend]
          | none => exact ih _ _

theorem detachedOptions_goodKeys (items : List Item) (ms : List OptItem)
    (stemEnd : Int) (hms : ∀ m ∈ ms, isOptionLetter m.letter = true) :
    GoodKeys (detachedOptions items ms stemEnd) := by
  have h1 : GoodKeys (bucketsInit ms) :=
    bucketsInit_goodKeys_aux ms [] goodKeys_nil hms
  have h2 := dictKeys_assignLoop ms stemEnd items 0 (bucketsInit ms)
  unfold detachedOptions GoodKeys
  rw [dictKeys_mapValues, h2]
  exact h1

theorem pifAux_keys : ∀ (lines : List String)
    (opts : List (String × String)) (stems : List String),
    GoodKeys opts → GoodKeys (pifAux lines opts stems).1 := by
  intro lines
  induction lines with
  | nil => intro opts stems h; simpa [pifAux] using h
  | cons l rest ih =>
      intro opts stems h
      rw [pifAux]
      match hm : inlineMatchPQ l with
      | some kv =>
          exact ih _ _
            (goodKeys_dictInsert _ _ _ (inlineMatchPQ_letter _ _ hm) h)
      | none =>
          by_cases ho : opts.isEmpty
          · rw [if_pos ho]; exact ih _ _ h
          · rw [if_neg ho]; exact ih _ _ h

theorem pqOptionPositionsAux_letter : ∀ (lines : List String) (i : Nat),
    ∀ p ∈ pqOptionPositionsAux lines i, isOptionLetter p.2 = true := by
  intro lines
  induction lines with
  | nil => intro i p hp; simp [pqOptionPositionsAux] at hp
  | cons l rest ih =>
      intro i p hp
      rw [pqOptionPositionsAux] at hp
      by_cases hl : isOptionLetter l
      · rw [if_pos hl] at hp
        rcases List.mem_cons.mp hp with h1 | h1
        · rw [h1]; exact hl
        · exact ih _ p h1
      · rw [if_neg hl] at hp
        exact ih _ p hp

theorem pqOptionsAux_keys (lines : List String) :
    ∀ (positions : List (Nat × String)) (startBefore : Nat)
    (opts : List (String × String)),
    (∀ p ∈ positions, isOptionLetter p.2 = true) → GoodKeys opts →
    GoodKeys (pqOptionsAux lines positions startBefore opts) := by
  intro positions
  induction positions with
  | nil => intro sb opts _ h; simpa [pqOptionsAux] using h
  | cons pos rest ih =>
      intro sb opts hpos h
      obtain ⟨pos1, letter⟩ := pos
      rw [pqOptionsAux.eq_def]
      simp only []
      exact ih _ _ (fun p hp => hpos p (List.mem_cons_of_mem _ hp))
        (goodKeys_dictInsert _ _ _
          (isOptionLetter_mem _ (hpos ⟨pos1, letter⟩ (List.mem_cons_self _ rest)))
          h)

theorem parseQuestion_goodKeys (text : String) :
    GoodKeys (parseQuestion text).options := by
  rcases hp : pqOptionPositions (pqFilter ((pyStrip text).splitOn "\n")) with
    - | ⟨⟨firstIdx, l⟩, rest⟩
  · rw [parseQuestion]
    simp only [hp, parseInlineFormat]
    exact pifAux_keys _ [] [] goodKeys_nil
  · rw [parseQuestion]
    simp only [hp]
    refine pqOptionsAux_keys _ _ _ _ ?_ goodKeys_nil
    intro p hp2
    exact pqOptionPositionsAux_letter _ 0 p (by rw [← pqOptionPositions, hp]; exact hp2)

/-- C6: for every raw fragment stream, the options of the reconstructed
`Question` (whichever strategy applies, including the text-only fallback)
have keys that form a duplicate-free subset of {A, B, C, D}. -/
theorem c6_option_keys (ws : List Item) :
    dictKeys (parseQuestionWithLocation ws).options ⊆ ["A", "B", "C", "D"] ∧
    (dictKeys (parseQuestionWithLocation ws).options).Nodup := by
  unfold parseQuestionWithLocation
  by_cases hws : ws.isEmpty
  · simp only [hws, if_pos]
    exact ⟨by simp [dictKeys], by simp [dictKeys]⟩
  · simp only [hws, Bool.false_eq_true, if_false]
    by_cases hscan : (inlineScanAux (sortedValid ws) 0 [] []).1.isEmpty
    · simp only [hscan, Bool.not_false, Bool.not_true, Bool.false_eq_true,
        if_false]
      by_cases hml : (optionLetters (sortedValid ws)).isEmpty
      · simp only [hml, if_pos]
        exact parseQuestion_goodKeys _
      · simp only [hml, Bool.false_eq_true, if_false]
        refine detachedOptions_goodKeys _ _ _ ?_
        intro m hm
        exact optionLettersAux_letter _ _ m
          ((mem_pySort _ m _).mp hm)
    · simp only [hscan, Bool.not_false, if_true]
      exact inlineScanAux_keys _ _ _ _ goodKeys_nil

end Nspin

namespace Nspin

/-! ## C9 — every marker becomes a key; empty buckets become `""` -/

theorem mem_dictKeys_foldl_insert :
    ∀ (ms : List OptItem) (d : List (String × List Item)) (x : String),
    (x ∈ dictKeys d ∨ ∃ m ∈ ms, m.letter = x) →
    x ∈ dictKeys (ms.foldl (fun d m => dictInsert m.letter [] d) d) := by
  intro ms
  induction ms with
  | nil =>
      intro d x h
      rcases h with h | ⟨m, hm, -⟩
      · simpa using h
      · simp at hm
  | cons m rest ih =>
      intro d x h
      simp only [List.foldl_cons]
      refine ih _ x ?_
      rcases h with h | ⟨m2, hm2, hx⟩
      · exact Or.inl (mem_dictKeys_dictInsert_of_mem _ _ _ _ h)
      · rcases List.mem_cons.mp hm2 with h1 | h1
        · subst h1
          exact Or.inl (hx ▸ mem_dictKeys_dictInsert_self _ _ _)
        · exact Or.inr ⟨m2, h1, hx⟩

theorem dictGet_bucketsInit_aux :
    ∀ (ms : List OptItem) (d : List (String × List Item)),
    (∀ x l, dictGet x d = some l → l = []) →
    ∀ x l, dictGet x (ms.foldl (fun d m => dictInsert m.letter [] d) d) =
      some l → l = [] := by
  intro ms
  induction ms with
  | nil => intro d h x l hx; exact h x l hx
  | cons m rest ih =>
      intro d h x l hx
      refine ih _ ?_ x l hx
      intro x2 l2 h2
      rw [dictGet_dictInsert] at h2
      by_cases hm : m.letter = x2
      · rw [if_pos hm] at h2
        simpa using h2.symm
      · rw [if_neg hm] at h2
        exact h x2 l2 h2

/-- C9: in the detached-letter strategy every standalone single-letter
marker becomes a key of the returned options, and a marker whose bucket
received no content fragment is mapped to the empty string. -/
theorem c9_markers_become_keys (ws : List Item)
    (hws : ws.isEmpty = false)
    (hscan : (inlineScanAux (sortedValid ws) 0 [] []).1 = [])
    (hml : (optionLetters (sortedValid ws)).isEmpty = false) :
    (∀ m ∈ optionLetters (sortedValid ws),
      m.letter ∈ dictKeys (parseQuestionWithLocation ws).options) ∧
    (∀ letter : String,
      dictGet letter
        (assignLoop
          (pySort (fun a b => a.top ≤ b.top) (optionLetters (sortedValid ws)))
          (stemEndIdx (sortedValid ws)
            (pySort (fun a b => a.top ≤ b.top) (optionLetters (sortedValid ws))))
          (sortedValid ws) 0
          (bucketsInit
            (pySort (fun a b => a.top ≤ b.top)
              (optionLetters (sortedValid ws))))) = some [] →
      dictGet letter (parseQuestionWithLocation ws).options = some "") := by
  have hopt : (parseQuestionWithLocation ws).options =
      detachedOptions (sortedValid ws)
        (pySort (fun a b => a.top ≤ b.top) (optionLetters (sortedValid ws)))
        (stemEndIdx (sortedValid ws)
          (pySort (fun a b => a.top ≤ b.top)
            (optionLetters (sortedValid ws)))) := by
    unfold parseQuestionWithLocation
    simp only [hws, hscan, hml, List.isEmpty_nil, Bool.not_true,
      Bool.false_eq_true, if_false, Bool.not_false, if_true]
  constructor
  · intro m hm
    rw [hopt]
    unfold detachedOptions
    rw [dictKeys_mapValues, dictKeys_assignLoop]
    unfold bucketsInit
    refine mem_dictKeys_foldl_insert _ [] m.letter (Or.inr ⟨m, ?_, rfl⟩)
    exact (mem_pySort _ m _).mpr hm
  · intro letter hbucket
    rw [hopt]
    unfold detachedOptions
    rw [dictGet_mapValues, hbucket]
    simp [optionText]

/-- C9 witness: the spec's own detached scenario, extended with a marker
`B` that receives no content fragment; `B` is a key and maps to `""`. -/
theorem c9_markers_witness :
    (⟨3, "B", 300⟩ : OptItem).letter ∈
      dictKeys (parseQuestionWithLocation
        [⟨"某空白处应填（）", 0, 0, 40, 200⟩, ⟨"A", 100, 0, 40, 20⟩,
         ⟨"触摸", 110, 0, 40, 60⟩, ⟨"B", 300, 0, 40, 20⟩]).options ∧
    dictGet "B" (parseQuestionWithLocation
        [⟨"某空白处应填（）", 0, 0, 40, 200⟩, ⟨"A", 100, 0, 40, 20⟩,
         ⟨"触摸", 110, 0, 40, 60⟩, ⟨"B", 300, 0, 40, 20⟩]).options =
      some "" := by
  constructor
  · exact (c9_markers_become_keys
      [⟨"某空白处应填（）", 0, 0, 40, 200⟩, ⟨"A", 100, 0, 40, 20⟩,
       ⟨"触摸", 110, 0, 40, 60⟩, ⟨"B", 300, 0, 40, 20⟩]
      (by decide) (by decide) (by decide)).1 ⟨3, "B", 300⟩ (by decide)
  · exact (c9_markers_become_keys
      [⟨"某空白处应填（）", 0, 0, 40, 200⟩, ⟨"A", 100, 0, 40, 20⟩,
       ⟨"触摸", 110, 0, 40, 60⟩, ⟨"B", 300, 0, 40, 20⟩]
      (by decide) (by decide) (by decide)).2 "B" (by decide)

end Nspin

namespace Nspin

/-! ## C4 — nearest-marker assignment -/

theorem closestAux_spec : ∀ (xs : List OptItem) (t : Int) (best : String)
    (b : Nat),
    ((∀ m ∈ xs, b ≤ (t - m.top).natAbs) ∧
      closestAux t xs (some best) (some b) = some best) ∨
    (∃ j, ∃ hj : j < xs.length,
      closestAux t xs (some best) (some b) =
        some ((xs.get ⟨j, hj⟩).letter) ∧
      (t - (xs.get ⟨j, hj⟩).top).natAbs < b ∧
      (∀ k, ∀ hk : k < xs.length,
        (t - (xs.get ⟨j, hj⟩).top).natAbs ≤
          (t - (xs.get ⟨k, hk⟩).top).natAbs) ∧
      (∀ k, ∀ hk : k < xs.length, k < j →
        (t - (xs.get ⟨j, hj⟩).top).natAbs <
          (t - (xs.get ⟨k, hk⟩).top).natAbs)) := by
  intro xs
  induction xs with
  | nil =>
      intro t best b
      exact Or.inl ⟨by simp, rfl⟩
  | cons x xs ih =>
      intro t best b
      by_cases hd : (t - x.top).natAbs < b
      · have hstep : closestAux t (x :: xs) (some best) (some b) =
            closestAux t xs (some x.letter) (some ((t - x.top).natAbs)) := by
          simp [closestAux, hd]
        rcases ih t x.letter ((t - x.top).natAbs) with ⟨hall, heq⟩ |
          ⟨j, hj, heq, hlt, hmin, hfirst⟩
        · refine Or.inr ⟨0, Nat.succ_pos _, hstep.trans heq, hd, ?_, ?_⟩
          · intro k hk
            match k, hk with
            | 0, _ => exact le_refl _
            | k + 1, hk =>
                exact hall (xs.get ⟨k, Nat.lt_of_succ_lt_succ hk⟩)
                  (List.get_mem _ _ _)
          · intro k hk hklt
            omega
        · refine Or.inr ⟨j + 1, Nat.succ_lt_succ hj, hstep.trans heq,
            lt_trans hlt hd, ?_, ?_⟩
          · intro k hk
            match k, hk with
            | 0, _ => exact le_of_lt hlt
            | k + 1, hk => exact hmin k (Nat.lt_of_succ_lt_succ hk)
          · intro k hk hklt
            match k, hk with
            | 0, _ => exact hlt
            | k + 1, hk =>
                exact hfirst k (Nat.lt_of_succ_lt_succ hk)
                  (Nat.lt_of_succ_lt_succ hklt)
      · have hstep : closestAux t (x :: xs) (some best) (some b) =
            closestAux t xs (some best) (some b) := by
          simp [closestAux, hd]
        have hbd : b ≤ (t - x.top).natAbs := Nat.le_of_not_lt hd
        rcases ih t best b with ⟨hall, heq⟩ |
          ⟨j, hj, heq, hlt, hmin, hfirst⟩
        · refine Or.inl ⟨?_, hstep.trans heq⟩
          intro m hm
          rcases List.mem_cons.mp hm with h1 | h1
          · exact h1 ▸ hbd
          · exact hall m h1
        · refine Or.inr ⟨j + 1, Nat.succ_lt_succ hj, hstep.trans heq, hlt,
            ?_, ?_⟩
          · intro k hk
            match k, hk with
            | 0, _ => exact le_of_lt (lt_of_lt_of_le hlt hbd)
            | k + 1, hk => exact hmin k (Nat.lt_of_succ_lt_succ hk)
          · intro k hk hklt
            match k, hk with
            | 0, _ => exact lt_of_lt_of_le hlt hbd
            | k + 1, hk =>
                exact hfirst k (Nat.lt_of_succ_lt_succ hk)
                  (Nat.lt_of_succ_lt_succ hklt)

theorem findClosest_spec (ms : List OptItem) (t : Int) (h : ¬ ms = []) :
    ∃ j, ∃ hj : j < ms.length,
      findClosest ms t = some ((ms.get ⟨j, hj⟩).letter) ∧
      (∀ k, ∀ hk : k < ms.length,
        (t - (ms.get ⟨j, hj⟩).top).natAbs ≤
          (t - (ms.get ⟨k, hk⟩).top).natAbs) ∧
      (∀ k, ∀ hk : k < ms.length, k < j →
        (t - (ms.get ⟨j, hj⟩).top).natAbs <
          (t - (ms.get ⟨k, hk⟩).top).natAbs) := by
  match ms, h with
  | x :: xs, _ =>
      have hunfold : findClosest (x :: xs) t =
          closestAux t xs (some x.letter) (some ((t - x.top).natAbs)) := rfl
      rcases closestAux_spec xs t x.letter ((t - x.top).natAbs) with
        ⟨hall, heq⟩ | ⟨j, hj, heq, hlt, hmin, hfirst⟩
      · refine ⟨0, Nat.succ_pos _, hunfold.trans heq, ?_, ?_⟩
        · intro k hk
          match k, hk with
          | 0, _ => exact le_refl _
          | k + 1, hk =>
              exact hall (xs.get ⟨k, Nat.lt_of_succ_lt_succ hk⟩)
                (List.get_mem _ _ _)
        · intro k hk hklt
          omega
      · refine ⟨j + 1, Nat.succ_lt_succ hj, hunfold.trans heq, ?_, ?_⟩
        · intro k hk
          match k, hk with
          | 0, _ => exact le_of_lt hlt
          | k + 1, hk => exact hmin k (Nat.lt_of_succ_lt_succ hk)
        · intro k hk hklt
          match k, hk with
          | 0, _ => exact hlt
          | k + 1, hk =>
              exact hfirst k (Nat.lt_of_succ_lt_succ hk)
                (Nat.lt_of_succ_lt_succ hklt)

end Nspin

namespace Nspin

theorem assignLoop_dictGet (ms : List OptItem) (se : Int) :
    ∀ (items : List Item) (i : Nat) (d : List (String × List Item))
      (q : String),
    dictGet q (assignLoop ms se items i d) =
      (dictGet q d).map (fun l =>
        l ++ (eligibleAux ms se items i).filter
          (fun it => findClosest ms it.top == some q)) := by
  intro items
  induction items with
  | nil =>
      intro i d q
      rw [assignLoop, eligibleAux]
      cases dictGet q d <;> simp
  | cons it rest ih =>
      intro i d q
      rw [assignLoop, eligibleAux]
      by_cases h1 : ((i : Int) ≤ se)
      · rw [if_pos h1, if_pos h1, ih]
      · rw [if_neg h1, if_neg h1]
        by_cases h2 : isOptionLetter it.text
        · rw [if_pos h2, if_pos h2, ih]
        · rw [if_neg h2, if_neg h2]
          rcases hc : findClosest ms it.top with - | letter
          · rw [ih]
            simp only [List.filter_cons, hc]
            simp
          · rw [ih, dictGet_dictAppend]
            by_cases hq : letter = q
            · subst hq
              rw [if_pos rfl]
              simp only [List.filter_cons, hc]
              simp only [Option.map_map]
              refine congrArg (fun f => Option.map f (dictGet letter d)) ?_
              funext l
              simp
            · rw [if_neg hq]
              simp only [List.filter_cons, hc]
              have : ((some letter : Option String) == some q) = false := by
                simpa using hq
              rw [this]
              simp

/-- C4: in the detached strategy, every content fragment strictly after
the stem boundary that is not itself a marker lands in exactly one bucket
of the assignment loop — the bucket of the nearest marker by absolute
vertical distance, with ties broken toward the marker that appears earlier
in the top-sorted marker list (and hence earlier in vertical order, the
list being sorted by `top`). -/
theorem c4_nearest_marker (ws items : List Item) (ms : List OptItem)
    (se : Int) (hitems : items = sortedValid ws)
    (hms : ms = pySort (fun a b => a.top ≤ b.top) (optionLetters items))
    (hse : se = stemEndIdx items ms)
    (hscan : (inlineScanAux items 0 [] []).1 = [])
    (hml : (optionLetters items).isEmpty = false)
    (it : Item) (hit : it ∈ eligibleAux ms se items 0) :
    List.Pairwise (fun a b => a.top ≤ b.top) ms ∧
    ∃ letter, findClosest ms it.top = some letter ∧
      (∀ q l, dictGet q (assignLoop ms se items 0 (bucketsInit ms)) =
          some l → (it ∈ l ↔ q = letter)) ∧
      ∃ j, ∃ hj : j < ms.length,
        (ms.get ⟨j, hj⟩).letter = letter ∧
        (∀ k, ∀ hk : k < ms.length,
          (it.top - (ms.get ⟨j, hj⟩).top).natAbs ≤
            (it.top - (ms.get ⟨k, hk⟩).top).natAbs) ∧
        (∀ k, ∀ hk : k < ms.length, k < j →
          (it.top - (ms.get ⟨j, hj⟩).top).natAbs <
            (it.top - (ms.get ⟨k, hk⟩).top).natAbs) := by
  have hsorted : List.Pairwise (fun a b => a.top ≤ b.top) ms := by
    rw [hms]
    refine List.Pairwise.imp ?_
      (pairwise_pySort _ ?_ ?_ (optionLetters items))
    · intro a b hab
      simpa using hab
    · intro a b c hab hbc
      simp only [decide_eq_true_eq] at hab hbc ⊢
      omega
    · intro a b
      rcases le_total a.top b.top with h | h
      · exact Or.inl (by simpa using h)
      · exact Or.inr (by simpa using h)
  have hne : ¬ ms = [] := by
    rw [hms]
    intro hcon
    have hlen := congrArg List.length hcon
    rw [length_pySort] at hlen
    simp only [List.length_nil] at hlen
    rw [List.length_eq_zero] at hlen
    rw [hlen] at hml
    simp at hml
  obtain ⟨j, hj, heq, hmin, hfirst⟩ := findClosest_spec ms it.top hne
  refine ⟨hsorted, (ms.get ⟨j, hj⟩).letter, heq, ?_, j, hj, rfl, hmin, hfirst⟩
  intro q l hl
  rw [assignLoop_dictGet] at hl
  obtain ⟨l0, hl0, rfl⟩ := Option.map_eq_some'.mp hl
  have hl0nil : l0 = [] := by
    refine dictGet_bucketsInit_aux ms [] ?_ q l0 hl0
    intro x l2 hx
    simp [dictGet] at hx
  subst hl0nil
  simp only [List.nil_append]
  constructor
  · intro hmem
    have hp := (List.mem_filter.mp hmem).2
    rw [heq] at hp
    have : some ((ms.get ⟨j, hj⟩).letter) = some q := by
      simpa [beq_iff_eq] using hp.symm
    exact (Option.some.inj this).symm ▸ rfl
  · intro hq
    subst hq
    refine List.mem_filter.mpr ⟨hit, ?_⟩
    rw [heq]
    simp

/-- C4 witness: on the spec's detached scenario the fragment `触摸`
(top 110) is assigned to the marker `A` (top 100), the nearest marker. -/
theorem c4_nearest_marker_witness :
    ∃ letter,
      findClosest
        (pySort (fun a b => a.top ≤ b.top)
          (optionLetters (sortedValid
            [⟨"某空白处应填（）", 0, 0, 40, 200⟩, ⟨"A", 100, 0, 40, 20⟩,
             ⟨"触摸", 110, 0, 40, 60⟩, ⟨"B", 300, 0, 40, 20⟩])))
        ((⟨"触摸", 110, 0, 40, 60⟩ : Item).top) = some letter ∧
      letter = "A" := by
  obtain ⟨-, letter, hfc, -⟩ := c4_nearest_marker
    [⟨"某空白处应填（）", 0, 0, 40, 200⟩, ⟨"A", 100, 0, 40, 20⟩,
     ⟨"触摸", 110, 0, 40, 60⟩, ⟨"B", 300, 0, 40, 20⟩] _ _ _
    rfl rfl rfl (by decide) (by decide) ⟨"触摸", 110, 0, 40, 60⟩ (by decide)
  refine ⟨letter, hfc, ?_⟩
  have h2 : findClosest
      (pySort (fun a b => a.top ≤ b.top)
        (optionLetters (sortedValid
          [⟨"某空白处应填（）", 0, 0, 40, 200⟩, ⟨"A", 100, 0, 40, 20⟩,
           ⟨"触摸", 110, 0, 40, 60⟩, ⟨"B", 300, 0, 40, 20⟩])))
      ((⟨"触摸", 110, 0, 40, 60⟩ : Item).top) = some "A" := by decide
  rw [h2] at hfc
  exact (Option.some.inj hfc).symm

end Nspin

namespace Nspin

/-! ## C1 / C2 — layout engine invariants -/

theorem fitToWidth_of_le (img : Img) (t : Nat) (h : img.width ≤ t) :
    fitToWidth img t = img := by
  simp [fitToWidth, h]

theorem layoutInv_nil : LayoutInv [] 0 := by
  refine ⟨fun _ => rfl, ?_, List.Pairwise.nil⟩
  intro p hp
  simp at hp

theorem layoutInv_goodPage (cur : List PlacedImage) (y : Nat)
    (h : LayoutInv cur y) : GoodPage cur := by
  refine ⟨?_, h.2.2⟩
  intro p hp
  obtain ⟨h1, h2, h3, -, h5⟩ := h.2.1 p hp
  exact ⟨h1, h3, h2, h5⟩

theorem layoutInv_mono (cur : List PlacedImage) (y y2 : Nat) (hy : y ≤ y2)
    (h : LayoutInv cur y) (hne : ¬ cur = []) : LayoutInv cur y2 := by
  refine ⟨fun hc => absurd hc hne, ?_, h.2.2⟩
  intro p hp
  obtain ⟨h1, h2, h3, h4, h5⟩ := h.2.1 p hp
  exact ⟨h1, h2, h3, le_trans h4 (by omega), h5⟩

/-- Appending one full-width block at the cursor preserves the invariant. -/
theorem layoutInv_push_single (cur : List PlacedImage) (y : Nat) (img : Img)
    (hw : img.width ≤ contentW) (hfit : y + img.height ≤ contentH)
    (h : LayoutInv cur y) :
    LayoutInv (cur ++ [⟨img, PADDING, PADDING + y, img.width, img.height⟩])
      (y + img.height + GAP) := by
  refine ⟨?_, ?_, ?_⟩
  · intro hc
    exact absurd hc (by simp)
  · intro p hp
    rcases List.mem_append.mp hp with h1 | h1
    · obtain ⟨g1, g2, g3, g4, g5⟩ := h.2.1 p h1
      exact ⟨g1, g2, g3, by omega, g5⟩
    · obtain rfl : p = ⟨img, PADDING, PADDING + y, img.width, img.height⟩ :=
        by simpa using h1
      refine ⟨?_, ?_, ?_, ?_, ?_⟩ <;> simp <;> omega
  · rw [List.pairwise_append]
    refine ⟨h.2.2, List.pairwise_singleton _ _, ?_⟩
    intro a ha b hb
    obtain rfl : b = ⟨img, PADDING, PADDING + y, img.width, img.height⟩ :=
      by simpa using hb
    obtain ⟨-, -, -, g4, -⟩ := h.2.1 a ha
    right; right; left
    simpa using g4

/-- Appending a side-by-side pair at the cursor preserves the invariant. -/
theorem layoutInv_push_pair (cur : List PlacedImage) (y : Nat)
    (img next : Img) (hw1 : img.width ≤ halfWidth)
    (hw2 : next.width ≤ halfWidth)
    (hfit : y + max img.height next.height ≤ contentH)
    (h : LayoutInv cur y) :
    LayoutInv (cur ++
        [⟨img, PADDING, PADDING + y, img.width, img.height⟩,
         ⟨next, PADDING + halfWidth + GAP, PADDING + y,
           next.width, next.height⟩])
      (y + max img.height next.height + GAP) := by
  have hhw : 2 * halfWidth + GAP ≤ contentW := by decide
  have hh1 : img.height ≤ max img.height next.height := Nat.le_max_left _ _
  have hh2 : next.height ≤ max img.height next.height := Nat.le_max_right _ _
  refine ⟨?_, ?_, ?_⟩
  · intro hc
    exact absurd hc (by simp)
  · intro p hp
    rcases List.mem_append.mp hp with h1 | h1
    · obtain ⟨g1, g2, g3, g4, g5⟩ := h.2.1 p h1
      exact ⟨g1, g2, g3, by omega, g5⟩
    · rcases List.mem_cons.mp h1 with h2 | h2
      · subst h2
        refine ⟨?_, ?_, ?_, ?_, ?_⟩ <;> simp <;> omega
      · obtain rfl : p = ⟨next, PADDING + halfWidth + GAP, PADDING + y,
            next.width, next.height⟩ := by simpa using h2
        refine ⟨?_, ?_, ?_, ?_, ?_⟩ <;> simp <;> omega
  · rw [List.pairwise_append]
    refine ⟨h.2.2, ?_, ?_⟩
    · refine List.pairwise_cons.mpr ⟨?_, List.pairwise_singleton _ _⟩
      intro b hb
      obtain rfl : b = ⟨next, PADDING + halfWidth + GAP, PADDING + y,
          next.width, next.height⟩ := by simpa using hb
      left
      simp
      omega
    · intro a ha b hb
      obtain ⟨-, -, -, g4, -⟩ := h.2.1 a ha
      rcases List.mem_cons.mp hb with h2 | h2
      · subst h2
        right; right; left
        simpa using g4
      · obtain rfl : b = ⟨next, PADDING + halfWidth + GAP, PADDING + y,
            next.width, next.height⟩ := by simpa using h2
        right; right; left
        simpa using g4

end Nspin

namespace Nspin

theorem singleStep_preserves (img : Img) (pages : List (List PlacedImage))
    (cur : List PlacedImage) (y : Nat)
    (p : List (List PlacedImage)) (c : List PlacedImage) (y2 : Nat)
    (hw : img.width ≤ contentW) (hh : img.height ≤ contentH)
    (hpages : ∀ pg ∈ pages, GoodPage pg) (hinv : LayoutInv cur y)
    (hs : singleStep img pages cur y = (p, c, y2)) :
    (∀ pg ∈ p, GoodPage pg) ∧ LayoutInv c y2 ∧ ¬ c = [] := by
  unfold singleStep flushStep at hs
  by_cases hcond : (decide (contentH < y + img.height) && !cur.isEmpty) = true
  · rw [if_pos hcond] at hs
    simp only [Prod.mk.injEq] at hs
    obtain ⟨rfl, rfl, rfl⟩ := hs
    have hb := hcond
    rw [Bool.and_eq_true] at hb
    have hne : ¬ cur = [] := by
      simpa [List.isEmpty_iff] using hb.2
    refine ⟨?_, ?_, by simp⟩
    · intro pg hpg
      rcases List.mem_append.mp hpg with h1 | h1
      · exact hpages pg h1
      · obtain rfl : pg = cur := by simpa using h1
        exact layoutInv_goodPage _ y hinv
    · simpa using layoutInv_push_single [] 0 img hw (by omega) layoutInv_nil
  · rw [if_neg hcond] at hs
    simp only [Prod.mk.injEq] at hs
    obtain ⟨rfl, rfl, rfl⟩ := hs
    have hfit : y + img.height ≤ contentH := by
      by_cases h1 : contentH < y + img.height
      · by_cases h2 : cur = []
        · have hy := hinv.1 h2
          omega
        · exfalso
          apply hcond
          rw [Bool.and_eq_true]
          constructor
          · simpa using h1
          · simpa [List.isEmpty_iff] using h2
      · omega
    refine ⟨hpages, layoutInv_push_single cur y img hw hfit hinv, by simp⟩

end Nspin

namespace Nspin

theorem flushStep_cases (h : Nat) (pages : List (List PlacedImage))
    (cur : List PlacedImage) (y : Nat) (p : List (List PlacedImage))
    (c : List PlacedImage) (y2 : Nat)
    (hs : flushStep h pages cur y = (p, c, y2)) :
    (¬ cur = [] ∧ p = pages ++ [cur] ∧ c = [] ∧ y2 = 0) ∨
    (p = pages ∧ c = cur ∧ y2 = y ∧ ¬ (contentH < y + h ∧ ¬ cur = [])) := by
  unfold flushStep at hs
  by_cases hcond : (decide (contentH < y + h) && !cur.isEmpty) = true
  · rw [if_pos hcond] at hs
    simp only [Prod.mk.injEq] at hs
    have hb := hcond
    rw [Bool.and_eq_true] at hb
    exact Or.inl ⟨by simpa [List.isEmpty_iff] using hb.2,
      hs.1.symm, hs.2.1.symm, hs.2.2.symm⟩
  · rw [if_neg hcond] at hs
    simp only [Prod.mk.injEq] at hs
    refine Or.inr ⟨hs.1.symm, hs.2.1.symm, hs.2.2.symm, ?_⟩
    intro hcon
    apply hcond
    rw [Bool.and_eq_true]
    exact ⟨by simpa using hcon.1, by simpa [List.isEmpty_iff] using hcon.2⟩

theorem flushStep_pages_nonempty (h : Nat) (pages : List (List PlacedImage))
    (cur : List PlacedImage) (y : Nat) (p : List (List PlacedImage))
    (c : List PlacedImage) (y2 : Nat)
    (hpages : ∀ pg ∈ pages, ¬ pg = [])
    (hs : flushStep h pages cur y = (p, c, y2)) : ∀ pg ∈ p, ¬ pg = [] := by
  rcases flushStep_cases h pages cur y p c y2 hs with
    ⟨hcur, rfl, rfl, rfl⟩ | ⟨rfl, rfl, rfl, -⟩
  · intro pg hpg
    rcases List.mem_append.mp hpg with h1 | h1
    · exact hpages pg h1
    · obtain rfl : pg = cur := by simpa using h1
      exact hcur
  · exact hpages

theorem singleStep_pages_nonempty (img : Img)
    (pages : List (List PlacedImage)) (cur : List PlacedImage) (y : Nat)
    (hpages : ∀ pg ∈ pages, ¬ pg = []) :
    (∀ pg ∈ (singleStep img pages cur y).1, ¬ pg = []) ∧
    ¬ (singleStep img pages cur y).2.1 = [] := by
  rcases hs : flushStep img.height pages cur y with ⟨p, c, y2⟩
  unfold singleStep
  rw [hs]
  exact ⟨flushStep_pages_nonempty img.height pages cur y p c y2 hpages hs,
    by simp⟩

theorem layoutLoop_nonempty : ∀ (n : Nat) (imgs : List Img),
    imgs.length ≤ n → ∀ (pages : List (List PlacedImage))
    (cur : List PlacedImage) (y : Nat),
    (∀ pg ∈ pages, ¬ pg = []) →
    ∀ pg ∈ layoutLoop imgs pages cur y, ¬ pg = [] := by
  intro n
  induction n with
  | zero =>
      intro imgs hlen pages cur y hpages pg hpg
      obtain rfl : imgs = [] := List.length_eq_zero.mp (Nat.le_zero.mp hlen)
      rw [layoutLoop] at hpg
      by_cases hcur : cur.isEmpty
      · rw [if_pos hcur] at hpg
        exact hpages pg hpg
      · rw [if_neg hcur] at hpg
        rcases List.mem_append.mp hpg with h1 | h1
        · exact hpages pg h1
        · obtain rfl : pg = cur := by simpa using h1
          simpa [List.isEmpty_iff] using hcur
  | succ n ih =>
      intro imgs hlen pages cur y hpages
      match imgs, hlen with
      | [], hlen =>
          intro pg hpg
          rw [layoutLoop] at hpg
          by_cases hcur : cur.isEmpty
          · rw [if_pos hcur] at hpg
            exact hpages pg hpg
          · rw [if_neg hcur] at hpg
            rcases List.mem_append.mp hpg with h1 | h1
            · exact hpages pg h1
            · obtain rfl : pg = cur := by simpa using h1
              simpa [List.isEmpty_iff] using hcur
      | [img], hlen =>
          rcases hs : flushStep img.height pages cur y with ⟨pages1, cur1, y1⟩
          have hpages1 := flushStep_pages_nonempty img.height pages cur y
            pages1 cur1 y1 hpages hs
          have hstep := singleStep_pages_nonempty img pages1 cur1 y1 hpages1
          have hred : layoutLoop [img] pages cur y =
              layoutLoop [] (singleStep img pages1 cur1 y1).1
                (singleStep img pages1 cur1 y1).2.1
                (singleStep img pages1 cur1 y1).2.2 := by
            conv_lhs => rw [layoutLoop]
            rw [hs]
          rw [hred]
          exact ih [] (by simp) _ _ _ hstep.1
      | img :: next :: rest2, hlen =>
          rcases hs : flushStep img.height pages cur y with ⟨pages1, cur1, y1⟩
          have hpages1 := flushStep_pages_nonempty img.height pages cur y
            pages1 cur1 y1 hpages hs
          have hstep := singleStep_pages_nonempty img pages1 cur1 y1 hpages1
          have hlen2 : (next :: rest2).length ≤ n := by
            simp only [List.length_cons] at hlen ⊢
            omega
          by_cases hwcond :
              (decide (img.width ≤ halfWidth) &&
                decide (next.width ≤ halfWidth)) = true
          · by_cases hfit :
                y1 + max (fitToWidth img halfWidth).height
                  (fitToWidth next halfWidth).height ≤ contentH
            · have hred : layoutLoop (img :: next :: rest2) pages cur y =
                  layoutLoop rest2 pages1
                    (cur1 ++
                      [⟨fitToWidth img halfWidth, PADDING, PADDING + y1,
                        (fitToWidth img halfWidth).width,
                        (fitToWidth img halfWidth).height⟩,
                       ⟨fitToWidth next halfWidth,
                        PADDING + halfWidth + GAP, PADDING + y1,
                        (fitToWidth next halfWidth).width,
                        (fitToWidth next halfWidth).height⟩])
                    (y1 + max (fitToWidth img halfWidth).height
                      (fitToWidth next halfWidth).height + GAP) := by
                conv_lhs => rw [layoutLoop]
                rw [hs]
                simp only []
                rw [if_pos hwcond, if_pos hfit]
              rw [hred]
              refine ih rest2 ?_ _ _ _ hpages1
              simp only [List.length_cons] at hlen
              omega
            · have hred : layoutLoop (img :: next :: rest2) pages cur y =
                  layoutLoop (next :: rest2)
                    (singleStep img pages1 cur1 y1).1
                    (singleStep img pages1 cur1 y1).2.1
                    (singleStep img pages1 cur1 y1).2.2 := by
                conv_lhs => rw [layoutLoop]
                rw [hs]
                simp only []
                rw [if_pos hwcond, if_neg hfit]
              rw [hred]
              exact ih (next :: rest2) hlen2 _ _ _ hstep.1
          · have hred : layoutLoop (img :: next :: rest2) pages cur y =
                layoutLoop (next :: rest2)
                  (singleStep img pages1 cur1 y1).1
                  (singleStep img pages1 cur1 y1).2.1
                  (singleStep img pages1 cur1 y1).2.2 := by
              conv_lhs => rw [layoutLoop]
              rw [hs]
              simp only []
              rw [if_neg hwcond]
            rw [hred]
            exact ih (next :: rest2) hlen2 _ _ _ hstep.1

end Nspin

namespace Nspin

theorem flushStep_preserves (h : Nat) (pages : List (List PlacedImage))
    (cur : List PlacedImage) (y : Nat) (p : List (List PlacedImage))
    (c : List PlacedImage) (y2 : Nat)
    (hpages : ∀ pg ∈ pages, GoodPage pg) (hinv : LayoutInv cur y)
    (hs : flushStep h pages cur y = (p, c, y2)) :
    (∀ pg ∈ p, GoodPage pg) ∧ LayoutInv c y2 := by
  rcases flushStep_cases h pages cur y p c y2 hs with
    ⟨hcur, rfl, rfl, rfl⟩ | ⟨rfl, rfl, rfl, -⟩
  · refine ⟨?_, layoutInv_nil⟩
    intro pg hpg
    rcases List.mem_append.mp hpg with h1 | h1
    · exact hpages pg h1
    · obtain rfl : pg = cur := by simpa using h1
      exact layoutInv_goodPage _ y hinv
  · exact ⟨hpages, hinv⟩

theorem layoutLoop_good : ∀ (n : Nat) (imgs : List Img),
    imgs.length ≤ n → ∀ (pages : List (List PlacedImage))
    (cur : List PlacedImage) (y : Nat),
    (∀ i ∈ imgs, i.width ≤ contentW ∧ i.height ≤ contentH) →
    (∀ pg ∈ pages, GoodPage pg) → LayoutInv cur y →
    ∀ pg ∈ layoutLoop imgs pages cur y, GoodPage pg := by
  intro n
  induction n with
  | zero =>
      intro imgs hlen pages cur y _ hpages hinv pg hpg
      obtain rfl : imgs = [] := List.length_eq_zero.mp (Nat.le_zero.mp hlen)
      rw [layoutLoop] at hpg
      by_cases hcur : cur.isEmpty
      · rw [if_pos hcur] at hpg
        exact hpages pg hpg
      · rw [if_neg hcur] at hpg
        rcases List.mem_append.mp hpg with h1 | h1
        · exact hpages pg h1
        · obtain rfl : pg = cur := by simpa using h1
          exact layoutInv_goodPage _ y hinv
  | succ n ih =>
      intro imgs hlen pages cur y himgs hpages hinv
      match imgs, hlen with
      | [], hlen =>
          intro pg hpg
          rw [layoutLoop] at hpg
          by_cases hcur : cur.isEmpty
          · rw [if_pos hcur] at hpg
            exact hpages pg hpg
          · rw [if_neg hcur] at hpg
            rcases List.mem_append.mp hpg with h1 | h1
            · exact hpages pg h1
            · obtain rfl : pg = cur := by simpa using h1
              exact layoutInv_goodPage _ y hinv
      | [img], hlen =>
          rcases hs : flushStep img.height pages cur y with ⟨pages1, cur1, y1⟩
          obtain ⟨hpages1, hinv1⟩ := flushStep_preserves img.height pages cur
            y pages1 cur1 y1 hpages hinv hs
          rcases hstep : singleStep img pages1 cur1 y1 with ⟨p1, c1, y31⟩
          obtain ⟨hp1, hinv2, -⟩ := singleStep_preserves img pages1 cur1 y1
            p1 c1 y31 (himgs img (by simp)).1 (himgs img (by simp)).2
            hpages1 hinv1 hstep
          have hred : layoutLoop [img] pages cur y =
              layoutLoop [] p1 c1 y31 := by
            conv_lhs => rw [layoutLoop]
            rw [hs]
            simp only []
            rw [hstep]
          rw [hred]
          intro pg hpg
          exact ih [] (by simp) p1 c1 y31 (by simp) hp1 hinv2 pg hpg
      | img :: next :: rest2, hlen =>
          rcases hs : flushStep img.height pages cur y with ⟨pages1, cur1, y1⟩
          obtain ⟨hpages1, hinv1⟩ := flushStep_preserves img.height pages cur
            y pages1 cur1 y1 hpages hinv hs
          have himg := himgs img (by simp)
          have hnext := himgs next (by simp)
          have hrest2 : ∀ i ∈ rest2, i.width ≤ contentW ∧ i.height ≤ contentH :=
            fun i hi => himgs i (by simp [hi])
          have hnextrest : ∀ i ∈ (next :: rest2),
              i.width ≤ contentW ∧ i.height ≤ contentH :=
            fun i hi => himgs i (by
              rcases List.mem_cons.mp hi with h1 | h1 <;> simp [h1])
          have hlen2 : (next :: rest2).length ≤ n := by
            simp only [List.length_cons] at hlen ⊢
            omega
          by_cases hwcond :
              (decide (img.width ≤ halfWidth) &&
                decide (next.width ≤ halfWidth)) = true
          · have hb := hwcond
            rw [Bool.and_eq_true] at hb
            have hw1 : img.width ≤ halfWidth := by simpa using hb.1
            have hw2 : next.width ≤ halfWidth := by simpa using hb.2
            by_cases hfit :
                y1 + max (fitToWidth img halfWidth).height
                  (fitToWidth next halfWidth).height ≤ contentH
            · have hred : layoutLoop (img :: next :: rest2) pages cur y =
                  layoutLoop rest2 pages1
                    (cur1 ++
                      [⟨fitToWidth img halfWidth, PADDING, PADDING + y1,
                        (fitToWidth img halfWidth).width,
                        (fitToWidth img halfWidth).height⟩,
                       ⟨fitToWidth next halfWidth,
                        PADDING + halfWidth + GAP, PADDING + y1,
                        (fitToWidth next halfWidth).width,
                        (fitToWidth next halfWidth).height⟩])
                    (y1 + max (fitToWidth img halfWidth).height
                      (fitToWidth next halfWidth).height + GAP) := by
                conv_lhs => rw [layoutLoop]
                rw [hs]
                simp only []
                rw [if_pos hwcond, if_pos hfit]
              rw [hred]
              rw [fitToWidth_of_le img halfWidth hw1,
                fitToWidth_of_le next halfWidth hw2] at hfit ⊢
              intro pg hpg
              refine ih rest2 ?_ _ _ _ hrest2 hpages1
                (layoutInv_push_pair cur1 y1 img next hw1 hw2 hfit hinv1)
                pg hpg
              simp only [List.length_cons] at hlen
              omega
            · rcases hstep : singleStep img pages1 cur1 y1 with ⟨p1, c1, y31⟩
              obtain ⟨hp1, hinv2, -⟩ := singleStep_preserves img pages1 cur1
                y1 p1 c1 y31 himg.1 himg.2 hpages1 hinv1 hstep
              have hred : layoutLoop (img :: next :: rest2) pages cur y =
                  layoutLoop (next :: rest2) p1 c1 y31 := by
                conv_lhs => rw [layoutLoop]
                rw [hs]
                simp only []
                rw [if_pos hwcond, if_neg hfit, hstep]
              rw [hred]
              intro pg hpg
              exact ih (next :: rest2) hlen2 p1 c1 y31 hnextrest hp1 hinv2
                pg hpg
          · rcases hstep : singleStep img pages1 cur1 y1 with ⟨p1, c1, y31⟩
            obtain ⟨hp1, hinv2, -⟩ := singleStep_preserves img pages1 cur1
              y1 p1 c1 y31 himg.1 himg.2 hpages1 hinv1 hstep
            have hred : layoutLoop (img :: next :: rest2) pages cur y =
                layoutLoop (next :: rest2) p1 c1 y31 := by
              conv_lhs => rw [layoutLoop]
              rw [hs]
              simp only []
              rw [if_neg hwcond, hstep]
            rw [hred]
            intro pg hpg
            exact ih (next :: rest2) hlen2 p1 c1 y31 hnextrest hp1 hinv2
              pg hpg

end Nspin

namespace Nspin

theorem renderLoop_nonempty (measure : List Char → Int) :
    ∀ (qs : List Question) (idx : Nat)
    (pages : List (List (Nat × Question))) (cur : List (Nat × Question))
    (y : Nat),
    (∀ p ∈ qs.enumFrom idx,
      calcQuestionHeight measure CONTENT_WIDTH p.2 p.1 ≤
        PAGE_HEIGHT - 2 * MARGIN) →
    (∀ pg ∈ pages, ¬ pg = []) → (cur = [] → y = MARGIN) →
    ∀ pg ∈ renderLoop measure qs idx pages cur y, ¬ pg = [] := by
  intro qs
  induction qs with
  | nil =>
      intro idx pages cur y _ hpages hinv pg hpg
      rw [renderLoop] at hpg
      by_cases hy : MARGIN < y
      · rw [if_pos hy] at hpg
        rcases List.mem_append.mp hpg with h1 | h1
        · exact hpages pg h1
        · obtain rfl : pg = cur := by simpa using h1
          intro hc
          have := hinv hc
          omega
      · rw [if_neg hy] at hpg
        exact hpages pg hpg
  | cons q rest ih =>
      intro idx pages cur y hheights hpages hinv
      have hq : calcQuestionHeight measure CONTENT_WIDTH q idx ≤
          PAGE_HEIGHT - 2 * MARGIN := by
        refine hheights (idx, q) ?_
        simp [List.enumFrom]
      have hrest : ∀ p ∈ rest.enumFrom (idx + 1),
          calcQuestionHeight measure CONTENT_WIDTH p.2 p.1 ≤
            PAGE_HEIGHT - 2 * MARGIN := by
        intro p hp
        refine hheights p ?_
        simp [List.enumFrom, hp]
      rcases hs : renderFlush (calcQuestionHeight measure CONTENT_WIDTH q idx)
          pages cur y with ⟨pages1, cur1, y1⟩
      have hPH : PAGE_HEIGHT = 2480 := rfl
      have hM : MARGIN = 120 := rfl
      have hpages1 : ∀ pg ∈ pages1, ¬ pg = [] := by
        unfold renderFlush at hs
        by_cases hcond : PAGE_HEIGHT - MARGIN <
            y + calcQuestionHeight measure CONTENT_WIDTH q idx
        · rw [if_pos hcond] at hs
          simp only [Prod.mk.injEq] at hs
          rw [← hs.1]
          intro pg hpg
          rcases List.mem_append.mp hpg with h1 | h1
          · exact hpages pg h1
          · obtain rfl : pg = cur := by simpa using h1
            intro hc
            subst hc
            have := hinv rfl
            omega
        · rw [if_neg hcond] at hs
          simp only [Prod.mk.injEq] at hs
          rw [← hs.1]
          exact hpages
      have hred : renderLoop measure (q :: rest) idx pages cur y =
          renderLoop measure rest (idx + 1) pages1 (cur1 ++ [(idx, q)])
            (renderQuestionEndY measure CONTENT_WIDTH q idx y1 + 40) := by
        conv_lhs => rw [renderLoop]
        rw [hs]
      rw [hred]
      exact ih (idx + 1) pages1 (cur1 ++ [(idx, q)]) _ hrest hpages1
        (by simp)

/-- C2 counterexample: the question renderer emits a page with zero
questions.  With a font where every character exceeds the line width, a
29-character stem wraps to 32 lines (2304 px), more than the 2240 px
content height, so the very first page-break check flushes the still
empty first page into the output. -/
theorem c2_counterexample :
    [] ∈ renderQuestionsToPages (fun cs => 4000 * cs.length)
      [⟨String.mk (List.replicate 29 'x'), [], ""⟩] := by
  decide

/-- C2 (amended): the image bin-packer never emits a page with zero
placed blocks — its flushes are guarded by page non-emptiness — and the
question-page renderer never does so provided every question's estimated
height (for its position in the 1-based numbering) fits the content
height `PAGE_HEIGHT − 2·MARGIN`; without that proviso the renderer can
flush an empty in-progress page. -/
theorem c2_no_empty_pages :
    (∀ (imgs : List Img), ∀ pg ∈ layoutImages imgs, ¬ pg = []) ∧
    (∀ (measure : List Char → Int) (qs : List Question),
      (∀ p ∈ qs.enumFrom 1,
        calcQuestionHeight measure CONTENT_WIDTH p.2 p.1 ≤
          PAGE_HEIGHT - 2 * MARGIN) →
      ∀ pg ∈ renderQuestionsToPages measure qs, ¬ pg = []) := by
  constructor
  · intro imgs pg hpg
    refine layoutLoop_nonempty imgs.length imgs (le_refl _) [] [] 0 ?_ pg hpg
    intro pg2 hpg2
    simp at hpg2
  · intro measure qs hheights pg hpg
    unfold renderQuestionsToPages at hpg
    by_cases hqs : qs.isEmpty
    · rw [if_pos hqs] at hpg
      simp at hpg
    · rw [if_neg hqs] at hpg
      refine renderLoop_nonempty measure qs 1 [] [] MARGIN hheights ?_
        (fun _ => rfl) pg hpg
      intro pg2 hpg2
      simp at hpg2

/-- C2 witness: the amended theorem applied to a one-question document
whose height fits, and to a concrete image list. -/
theorem c2_no_empty_pages_witness :
    ¬ ([] ∈ renderQuestionsToPages (fun _ => 0) [⟨"甲", [], ""⟩]) ∧
    ¬ ([] ∈ layoutImages [⟨1000, 500⟩]) := by
  constructor
  · intro hmem
    exact c2_no_empty_pages.2 (fun _ => 0) [⟨"甲", [], ""⟩] (by decide)
      [] hmem rfl
  · intro hmem
    exact c2_no_empty_pages.1 [⟨1000, 500⟩] [] hmem rfl

/-- C1 counterexample: a narrow image taller than the content height is
placed overflowing the bottom of the content area — the scaling step only
constrains widths, so `y + height ≤ content_height` fails. -/
theorem c1_counterexample :
    layoutImages [⟨100, 4000⟩] =
      [[⟨⟨100, 4000⟩, PADDING, PADDING, 100, 4000⟩]] ∧
    ¬ ((⟨⟨100, 4000⟩, PADDING, PADDING, 100, 4000⟩ : PlacedImage).y +
        (⟨⟨100, 4000⟩, PADDING, PADDING, 100, 4000⟩ : PlacedImage).height ≤
        PADDING + contentH) := by
  constructor
  · simp [layoutImages, layoutLoop, singleStep, flushStep, contentH,
      contentW, halfWidth, A4_HEIGHT, A4_WIDTH, PADDING, GAP]
  · decide

/-- C1 (amended): for every list of pre-scaled blocks whose widths fit
the content width (as `_scale_images` guarantees) and whose heights fit
the content height, every block placed by `_layout_images` lies within
the content area and the blocks of each page are pairwise disjoint; the
non-overlap and horizontal-bound parts need no height assumption, but the
vertical bound fails without it. -/
theorem c1_layout_in_bounds (imgs : List Img)
    (hw : ∀ i ∈ imgs, i.width ≤ contentW)
    (hh : ∀ i ∈ imgs, i.height ≤ contentH) :
    ∀ pg ∈ layoutImages imgs,
      (∀ p ∈ pg, inBounds p) ∧ pg.Pairwise rectDisjoint := by
  intro pg hpg
  exact layoutLoop_good imgs.length imgs (le_refl _) [] [] 0
    (fun i hi => ⟨hw i hi, hh i hi⟩) (fun pg2 hpg2 => by simp at hpg2)
    layoutInv_nil pg hpg

/-- C1 witness: the amended theorem applied to the one-block input
`2400 × 3000`, whose placement the engine computes as the single block
`⟨2400 × 3000, 40, 40⟩`; that block is in bounds. -/
theorem c1_layout_in_bounds_witness :
    inBounds ⟨⟨2400, 3000⟩, PADDING, PADDING, 2400, 3000⟩ := by
  have heval : layoutImages [⟨2400, 3000⟩] =
      [[⟨⟨2400, 3000⟩, PADDING, PADDING, 2400, 3000⟩]] := by
    simp [layoutImages, layoutLoop, singleStep, flushStep, contentH,
      contentW, halfWidth, A4_HEIGHT, A4_WIDTH, PADDING, GAP]
  have h := c1_layout_in_bounds [⟨2400, 3000⟩] (by decide) (by decide)
    [⟨⟨2400, 3000⟩, PADDING, PADDING, 2400, 3000⟩] (by rw [heval]; simp)
  exact h.1 _ (by simp)

end Nspin

namespace Nspin

/-! ## C8 — grid-mode scenario (spec-modelled) -/

/-- C8 counterexample: five blocks wider than half the content width
(1200 > halfWidth = 1190) but of small height all fit on a single page in
grid mode with 4 columns — the scenario's "exactly two pages" does not
follow from the width condition alone. -/
theorem c8_counterexample :
    (gridLayout 4 [⟨1200, 10⟩, ⟨1200, 10⟩, ⟨1200, 10⟩, ⟨1200, 10⟩,
      ⟨1200, 10⟩]).length = 1 ∧ halfWidth < 1200 := by
  constructor
  · simp [gridLayout, gridLoop, gridRow, flushStep, cellWidth, contentH,
      contentW, A4_WIDTH, A4_HEIGHT, PADDING, GAP, List.enum,
      List.enumFrom]
  · decide

/-- C8 (amended, against the spec-modelled grid mode absent from the
source): five blocks wider than half the content width and of equal
height `h`, where one row fits a page (`h ≤ content height`) but two rows
do not (`content height < 2·h + gap`), are laid out in grid mode with 4
columns as exactly two pages: blocks 1–4 on the first page and block 5 on
the second. -/
theorem c8_grid_five_blocks (w1 w2 w3 w4 w5 h : Nat)
    (hw1 : halfWidth < w1) (hw2 : halfWidth < w2) (hw3 : halfWidth < w3)
    (hw4 : halfWidth < w4) (hw5 : halfWidth < w5)
    (hfits : h ≤ contentH) (htwo : contentH < 2 * h + GAP) :
    (gridLayout 4 [⟨w1, h⟩, ⟨w2, h⟩, ⟨w3, h⟩, ⟨w4, h⟩, ⟨w5, h⟩]).map
      (fun pg => pg.map (fun p => p.image)) =
      [[⟨w1, h⟩, ⟨w2, h⟩, ⟨w3, h⟩, ⟨w4, h⟩], [⟨w5, h⟩]] := by
  have hflush1 : flushStep h ([] : List (List PlacedImage)) [] 0 =
      ([], [], 0) := by
    unfold flushStep
    simp
  have hflush2 : ∀ (pages : List (List PlacedImage))
      (cur : List PlacedImage), ¬ cur = [] →
      flushStep h pages cur (h + GAP) = (pages ++ [cur], [], 0) := by
    intro pages cur hcur
    unfold flushStep
    have hcond : (decide (contentH < h + GAP + h) && !cur.isEmpty) = true := by
      rw [Bool.and_eq_true]
      constructor
      · simpa using (by omega : contentH < h + GAP + h)
      · simpa [List.isEmpty_iff] using hcur
    rw [if_pos hcond]
  simp [gridLayout, gridLoop, gridRow, hflush1, hflush2, List.enum,
    List.enumFrom, Nat.zero_max, Nat.max_self]

/-- C8 witness: the amended scenario at width 1200 and height 2000. -/
theorem c8_grid_five_blocks_witness :
    (gridLayout 4 [⟨1200, 2000⟩, ⟨1201, 2000⟩, ⟨1202, 2000⟩, ⟨1203, 2000⟩,
      ⟨1204, 2000⟩]).map (fun pg => pg.map (fun p => p.image)) =
      [[⟨1200, 2000⟩, ⟨1201, 2000⟩, ⟨1202, 2000⟩, ⟨1203, 2000⟩],
       [⟨1204, 2000⟩]] :=
  c8_grid_five_blocks 1200 1201 1202 1203 1204 2000 (by decide) (by decide)
    (by decide) (by decide) (by decide) (by decide) (by decide)

end Nspin
